import Mathlib

/-!
Verification development for the sparse-set entity storage engine of this
repository (entity traits, paged sparse index, dense array with three
deletion policies, cross-container ordering, typed payload storage).

The typed storage layer (`basic_storage`) is translated from
`src/unnamed/part_001` (storage.hpp).  The underlying `basic_sparse_set`
and `entt_traits` headers are not part of the source tree; the
corresponding definitions below are modelled from the specification
(sections 3, 4.1-4.3 of spec.md) and are pinned by the sparse-set test
suite that *is* part of the source tree (second half of
`src/unnamed/part_001`).  Entities are 32-bit values with a 20-bit index
field and a 12-bit generation field, as in the default `entt_traits`.
-/

/-- Modelled from the spec: fixed page size of the paged sparse index
(`traits_type::page_size`, ENTT_SPARSE_PAGE). -/
def pageSize : ℕ := 4096

/-- Modelled from the spec: mask of the 20-bit index field
(`entt_traits::entity_mask`, 0xFFFFF). -/
def entityMask : ℕ := 2 ^ 20 - 1

/-- Modelled from the spec: mask of the 12-bit generation field
(`entt_traits::version_mask`, 0xFFF). -/
def versionMask : ℕ := 2 ^ 12 - 1

/-- Modelled from the spec: `entt_traits::to_entity`, the index field of a
handle (low 20 bits). -/
def to_entity (v : ℕ) : ℕ := v % 2 ^ 20

/-- Modelled from the spec: `entt_traits::to_version`, the generation field
of a handle (high 12 bits). -/
def to_version (v : ℕ) : ℕ := v / 2 ^ 20 % 2 ^ 12

/-- Modelled from the spec: `entt_traits::construct(index, generation)`;
inputs are silently masked into their bit ranges. -/
def construct (i g : ℕ) : ℕ := g % 2 ^ 12 * 2 ^ 20 + i % 2 ^ 20

/-- Modelled from the spec: `entt_traits::combine(lhs, rhs)`: index field
taken from `lhs`, generation field taken from `rhs`. -/
def combine (l r : ℕ) : ℕ := r / 2 ^ 20 % 2 ^ 12 * 2 ^ 20 + l % 2 ^ 20

/-- Modelled from the spec: the `null` sentinel (all bits set; index field
all-ones). -/
def nullv : ℕ := 2 ^ 32 - 1

/-- Modelled from the spec: the `tombstone` sentinel (all bits set;
generation field all-ones). -/
def tombv : ℕ := 2 ^ 32 - 1

/-- Modelled from the spec: `entt_traits::next`: same index, generation + 1,
wrapping and skipping the tombstone generation value (as in the swap-only
pop of `basic_storage<Entity, Entity>` in src/unnamed/part_001). -/
def nextv (v : ℕ) : ℕ :=
  let vers := to_version v + 1
  construct (to_entity v) (vers + if vers = versionMask then 1 else 0)

theorem to_entity_lt (v : ℕ) : to_entity v < 2 ^ 20 :=
  Nat.mod_lt _ (by norm_num)

theorem to_version_lt (v : ℕ) : to_version v < 2 ^ 12 :=
  Nat.mod_lt _ (by norm_num)

theorem to_version_construct (i g : ℕ) : to_version (construct i g) = g % 2 ^ 12 := by
  unfold to_version construct
  rw [Nat.mul_comm, Nat.mul_add_div (by norm_num), Nat.div_eq_of_lt (Nat.mod_lt _ (by norm_num)),
    Nat.add_zero, Nat.mod_mod_of_dvd _ dvd_rfl]

theorem to_entity_construct (i g : ℕ) : to_entity (construct i g) = i % 2 ^ 20 := by
  unfold to_entity construct
  rw [Nat.add_comm, Nat.add_mul_mod_self_right, Nat.mod_mod_of_dvd _ dvd_rfl]

theorem to_version_combine (l r : ℕ) : to_version (combine l r) = to_version r := by
  unfold to_version combine
  rw [Nat.mul_comm, Nat.mul_add_div (by norm_num), Nat.div_eq_of_lt (Nat.mod_lt _ (by norm_num)),
    Nat.add_zero, Nat.mod_mod_of_dvd _ dvd_rfl]

theorem to_entity_combine (l r : ℕ) : to_entity (combine l r) = l % 2 ^ 20 := by
  unfold to_entity combine
  rw [Nat.add_comm, Nat.add_mul_mod_self_right, Nat.mod_mod_of_dvd _ dvd_rfl]

theorem to_entity_nextv (v : ℕ) : to_entity (nextv v) = to_entity v := by
  unfold nextv
  rw [to_entity_construct]
  exact Nat.mod_eq_of_lt (to_entity_lt v)

theorem pow_twelve_eq : (2 : ℕ) ^ 12 = 4096 := by norm_num

theorem to_version_nextv_ne_mask (v : ℕ) : to_version (nextv v) ≠ versionMask := by
  unfold nextv versionMask
  rw [to_version_construct]
  have h : to_version v < 2 ^ 12 := to_version_lt v
  rw [pow_twelve_eq] at h ⊢
  by_cases hv : to_version v + 1 = 4096 - 1
  · rw [if_pos hv, hv]
    omega
  · rw [if_neg hv]
    omega

theorem to_version_nextv_ne (v : ℕ) :
    to_version (nextv v) ≠ to_version v := by
  unfold nextv versionMask
  rw [to_version_construct]
  have hlt : to_version v < 2 ^ 12 := to_version_lt v
  rw [pow_twelve_eq] at hlt ⊢
  by_cases hv : to_version v + 1 = 4096 - 1
  · rw [if_pos hv]
    omega
  · rw [if_neg hv]
    omega

/-- Modelled from the spec: the three deletion policies selected at
construction (spec section 4.2). -/
inductive deletion_policy where
  | swap_and_pop
  | in_place
  | swap_only
deriving DecidableEq

/-- Modelled from the spec: the sparse set (spec sections 3 and 4.2).
`pages` is the page-pointer vector of the paged sparse index (`true` =
page allocated, `false` = null page pointer); `entries` holds the non-null
sparse entries as an association list from entity index to the stored
value `combine(dense_position, generation)`; `packed` is the dense array
of handles; `cap` is the capacity of the dense vector; `head` is the
`free_list` datum (unused sentinel `entityMask` for swap-and-pop, head of
the intrusive tombstone chain for in-place, boundary cursor for
swap-only). -/
structure sparse_set where
  pages : List Bool
  entries : List (ℕ × ℕ)
  packed : List ℕ
  cap : ℕ
  mode : deletion_policy
  head : ℕ
deriving DecidableEq

/-- Modelled from the spec: initial `free_list` value per policy
(`entityMask` unless swap-only, pinned by the FreeList tests). -/
def policy_to_head (m : deletion_policy) : ℕ :=
  match m with
  | .swap_only => 0
  | _ => entityMask

/-- Modelled from the spec: an empty sparse set with a given policy. -/
def mkSet (m : deletion_policy) : sparse_set :=
  ⟨[], [], [], 0, m, policy_to_head m⟩

def sparse_set.size (s : sparse_set) : ℕ := s.packed.length

def sparse_set.extent (s : sparse_set) : ℕ := s.pages.length * pageSize

/-- Modelled from the spec: sparse lookup for an entity index; `none` when
the page is missing or the entry is null. -/
def sparse_lookup (s : sparse_set) (idx : ℕ) : Option ℕ :=
  if s.pages.getD (idx / pageSize) false then
    (s.entries.find? (fun p => p.1 == idx)).map (fun p => p.2)
  else
    none

/-- Modelled from the spec: `contains(e)`: the sparse entry for `index(e)`
exists and its generation equals `version(e)` (and its position field is
not the null marker, as in the masked comparison of the original). -/
def sparse_set.contains (s : sparse_set) (e : ℕ) : Bool :=
  match sparse_lookup s (to_entity e) with
  | none => false
  | some x => to_version x == to_version e && to_entity x != entityMask

/-- Modelled from the spec: `current(e)`: the generation on record for
`index(e)`, or the tombstone generation if unknown. -/
def sparse_set.current (s : sparse_set) (e : ℕ) : ℕ :=
  match sparse_lookup s (to_entity e) with
  | none => versionMask
  | some x => to_version x

/-- Modelled from the spec: `index(e)`: the dense position on record for a
contained entity (precondition `contains(e)`). -/
def sparse_set.index_of (s : sparse_set) (e : ℕ) : ℕ :=
  match sparse_lookup s (to_entity e) with
  | none => 0
  | some x => to_entity x

/-- Association-list update for the non-null sparse entries. -/
def entry_set (es : List (ℕ × ℕ)) (k v : ℕ) : List (ℕ × ℕ) :=
  (k, v) :: es.filter (fun p => p.1 != k)

/-- Association-list removal (writing the null value into a sparse entry). -/
def entry_erase (es : List (ℕ × ℕ)) (k : ℕ) : List (ℕ × ℕ) :=
  es.filter (fun p => p.1 != k)

theorem find_filter_ne (es : List (ℕ × ℕ)) (k q : ℕ) (h : q ≠ k) :
    (es.filter (fun p => p.1 != k)).find? (fun p => p.1 == q) =
      es.find? (fun p => p.1 == q) := by
  induction es with
  | nil => rfl
  | cons a es ih =>
    by_cases ha : a.1 = k
    · have h1 : (a.1 != k) = false := by simp [ha]
      have h2 : (a.1 == q) = false := by simp [ha]; omega
      simp [List.filter_cons, h1, List.find?_cons, h2, ih]
    · have h1 : (a.1 != k) = true := by simp [ha]
      by_cases hq : a.1 = q
      · have h2 : (a.1 == q) = true := by simp [hq]
        simp [List.filter_cons, h1, List.find?_cons, h2]
      · have h2 : (a.1 == q) = false := by simp [hq]
        simp [List.filter_cons, h1, List.find?_cons, h2, ih]

theorem find_entry_set_self (es : List (ℕ × ℕ)) (k v : ℕ) :
    (entry_set es k v).find? (fun p => p.1 == k) = some (k, v) := by
  unfold entry_set
  simp [List.find?_cons]

theorem find_entry_set_ne (es : List (ℕ × ℕ)) (k v q : ℕ) (h : q ≠ k) :
    (entry_set es k v).find? (fun p => p.1 == q) = es.find? (fun p => p.1 == q) := by
  unfold entry_set
  have h2 : (k == q) = false := by simp; omega
  simp only [List.find?_cons, h2]
  exact find_filter_ne es k q h

theorem find_entry_erase_self (es : List (ℕ × ℕ)) (k : ℕ) :
    (entry_erase es k).find? (fun p => p.1 == k) = none := by
  unfold entry_erase
  rw [List.find?_eq_none]
  intro p hp
  have := List.of_mem_filter hp
  simp at this ⊢
  exact this

theorem find_entry_erase_ne (es : List (ℕ × ℕ)) (k q : ℕ) (h : q ≠ k) :
    (entry_erase es k).find? (fun p => p.1 == q) = es.find? (fun p => p.1 == q) :=
  find_filter_ne es k q h

theorem getD_set_self {α : Type} (l : List α) (i : ℕ) (a d : α) (h : i < l.length) :
    (l.set i a).getD i d = a := by
  rw [List.getD_eq_getElem?_getD, List.getElem?_set_self]
  · rfl
  · exact h

theorem getD_set_ne {α : Type} (l : List α) (i j : ℕ) (a d : α) (h : i ≠ j) :
    (l.set i a).getD j d = l.getD j d := by
  rw [List.getD_eq_getElem?_getD, List.getElem?_set_ne h, ← List.getD_eq_getElem?_getD]

/-- Modelled from the spec: `bump(e)`: overwrites the generation on record
for `index(e)` with `version(e)` and mirrors the new handle into the dense
slot; fails (fatal precondition) when the requested generation is the
tombstone generation or when the index is unused (spec section 4.2,
pinned by the Bump tests). -/
def sparse_set.bump (s : sparse_set) (e : ℕ) : Option (sparse_set × ℕ) :=
  if to_version e = versionMask then none
  else
    match sparse_lookup s (to_entity e) with
    | none => none
    | some x =>
      some ({ s with
                entries := entry_set s.entries (to_entity e) (combine x e),
                packed := s.packed.set (to_entity x) e },
            to_version e)

/-- Modelled from the spec: `swap_at(a, b)`: exchanges two dense slots and
refreshes both occupants' sparse entries. -/
def sparse_set.swap_at (s : sparse_set) (a b : ℕ) : sparse_set :=
  let ea := s.packed.getD a 0
  let eb := s.packed.getD b 0
  { s with
      entries := entry_set (entry_set s.entries (to_entity ea) (combine b ea))
        (to_entity eb) (combine a eb),
      packed := (s.packed.set a eb).set b ea }

/-- Modelled from the spec: swap-and-pop removal of one contained entity:
swap with the last dense slot and shrink (spec section 4.2 state machine). -/
def swap_and_pop_one (s : sparse_set) (e : ℕ) : sparse_set :=
  let pos := s.index_of e
  let back := s.packed.getD (s.packed.length - 1) 0
  let es1 := entry_set s.entries (to_entity back) (combine pos back)
  { s with
      entries := entry_erase es1 (to_entity e),
      packed := ((s.packed.set pos back).dropLast) }

/-- Modelled from the spec: in-place removal of one contained entity: the
dense slot is overwritten with a tombstone-generation handle whose index
field links to the previous free-list head, and the head becomes the
retired slot (spec section 4.2, pinned by the InPlace Erase/FreeList
tests). -/
def in_place_one (s : sparse_set) (e : ℕ) : sparse_set :=
  let pos := s.index_of e
  { s with
      entries := entry_erase s.entries (to_entity e),
      packed := s.packed.set pos (combine s.head tombv),
      head := pos }

/-- Modelled from the spec: swap-only removal of one contained entity: the
occupant's generation is bumped in place (skipping the tombstone
generation) and, when the slot is in the live region, it is swapped with
the slot at `free_list - 1` and the boundary cursor decremented (spec
section 4.2, pinned by the SwapOnly Erase test). -/
def swap_only_one (s : sparse_set) (e : ℕ) : sparse_set :=
  let pos := s.index_of e
  let s1 := match s.bump (nextv e) with
    | some p => p.1
    | none => s
  if pos < s.head then
    { s1.swap_at pos (s.head - 1) with head := s.head - 1 }
  else
    s1

/-- Modelled from the spec: `erase(e)` for a contained entity, dispatching
on the deletion policy (spec section 4.2). -/
def sparse_set.erase1 (s : sparse_set) (e : ℕ) : sparse_set :=
  match s.mode with
  | .swap_and_pop => swap_and_pop_one s e
  | .in_place => in_place_one s e
  | .swap_only => swap_only_one s e

/-- Modelled from the spec: growth of the page-pointer vector plus
allocation of the one page covering a given entity index (missing
intermediate pages stay unallocated). -/
def assure_pages (s : sparse_set) (idx : ℕ) : sparse_set :=
  let pg := idx / pageSize
  let padded := if pg < s.pages.length then s.pages
    else s.pages ++ List.replicate (pg + 1 - s.pages.length) false
  { s with pages := padded.set pg true }

/-- Modelled from the spec: plain append of a fresh entity at the back of
the dense array (capacity doubles when exhausted, as a `std::vector`). -/
def push_append (s : sparse_set) (e : ℕ) : sparse_set × ℕ :=
  let pos := s.packed.length
  ({ s with
       packed := s.packed ++ [e],
       cap := if s.packed.length = s.cap then max 1 (2 * s.cap) else s.cap,
       entries := entry_set s.entries (to_entity e) (combine pos e) }, pos)

/-- Modelled from the spec: `try_emplace(e, force_back)` without allocation
failure: in-place reuses the free-list head unless forced to the back;
swap-only revives a retired slot (or appends a fresh one) and advances the
boundary cursor (spec section 4.2, pinned by the Push tests). -/
def push1 (s0 : sparse_set) (e : ℕ) (force_back : Bool) : sparse_set × ℕ :=
  let s := assure_pages s0 (to_entity e)
  match s.mode with
  | .swap_and_pop => push_append s e
  | .in_place =>
    if s.head = entityMask ∨ force_back then push_append s e
    else
      let pos := s.head
      let link := to_entity (s.packed.getD pos 0)
      ({ s with
           entries := entry_set s.entries (to_entity e) (combine pos e),
           packed := s.packed.set pos e,
           head := link }, pos)
  | .swap_only =>
    match sparse_lookup s (to_entity e) with
    | none =>
      let s1 := (push_append s e).1
      let s2 := s1.swap_at (s1.packed.length - 1) s.head
      ({ s2 with head := s.head + 1 }, s.head)
    | some x =>
      let s1 := { s with
                    entries := entry_set s.entries (to_entity e) (combine x e),
                    packed := s.packed.set (to_entity x) e }
      let s2 := s1.swap_at (to_entity x) s.head
      ({ s2 with head := s.head + 1 }, s.head)

/-- Folding single pushes of a batch of entities. -/
def pushAll (s : sparse_set) (es : List ℕ) : sparse_set :=
  es.foldl (fun t e => (push1 t e false).1) s

/-- Rebuilding the sparse entries of a dense array starting at a given
position (used by `compact`). -/
def rebuild (l : List ℕ) (start : ℕ) : List (ℕ × ℕ) :=
  match l with
  | [] => []
  | x :: xs => (to_entity x, combine start x) :: rebuild xs (start + 1)

/-- Modelled from the spec: `compact()`: for the in-place policy, squeezes
out the tombstones, shrinking `size` to the live count and reassigning
dense slots; other policies hold no tombstones (spec section 4.2, pinned
by the Compact tests). -/
def sparse_set.compact (s : sparse_set) : sparse_set :=
  match s.mode with
  | .in_place =>
    let live := s.packed.filter (fun x => to_version x != versionMask)
    { s with packed := live, entries := rebuild live 0, head := entityMask }
  | _ => s

/-- Modelled from the spec: `contiguous()`: only the in-place policy can
hold tombstones; it is contiguous when the free list is empty (pinned by
the Contiguous tests). -/
def sparse_set.contiguous (s : sparse_set) : Bool :=
  decide (s.mode ≠ deletion_policy.in_place) || decide (s.head = entityMask)

/-- Modelled from the spec: the precondition of `sort_as`/`sort_n`: an
in-place target must be contiguous; a swap-only target must have its whole
dense range in use (pinned by the InPlaceDeathTest/SwapOnlyDeathTest
SortAs tests). -/
def sort_as_allowed (s : sparse_set) : Bool :=
  (decide (s.mode ≠ deletion_policy.in_place) || decide (s.head = entityMask)) &&
    (decide (s.mode ≠ deletion_policy.swap_only) || decide (s.head = s.packed.length))

/-- Modelled from the spec: page assurance under a failing allocator.  The
`budget` counts the entity-typed allocations that still succeed; the
page-pointer vector is resized first and that growth is retained when the
page allocation itself throws (pinned by the ThrowingAllocator test:
`extent()` equals `page_size` after the failed first push). -/
def assure_throwing (s : sparse_set) (idx budget : ℕ) :
    (sparse_set × ℕ) ⊕ sparse_set :=
  let pg := idx / pageSize
  let padded := if pg < s.pages.length then s.pages
    else s.pages ++ List.replicate (pg + 1 - s.pages.length) false
  let s1 := { s with pages := padded }
  if padded.getD pg false then .inl (s1, budget)
  else if budget = 0 then .inr s1
  else .inl ({ s1 with pages := padded.set pg true }, budget - 1)

/-- Modelled from the spec: dense-vector append under a failing allocator;
a failed growth leaves the vector untouched (strong guarantee of
`std::vector::push_back`). -/
def pushback_throwing (s : sparse_set) (e budget : ℕ) :
    (sparse_set × ℕ) ⊕ sparse_set :=
  if s.packed.length = s.cap then
    if budget = 0 then .inr s
    else .inl ({ s with packed := s.packed ++ [e], cap := max 1 (2 * s.cap) }, budget - 1)
  else .inl ({ s with packed := s.packed ++ [e] }, budget)

/-- Modelled from the spec: a single `push` under a failing allocator: the
page is assured first, then the dense append happens, then the sparse
entry is written; a throw from either allocation propagates after the
vector growth already performed (pinned by the ThrowingAllocator test). -/
def push_throwing (s0 : sparse_set) (e budget : ℕ) :
    sparse_set ⊕ (sparse_set × ℕ) :=
  match assure_throwing s0 (to_entity e) budget with
  | .inr t => .inl t
  | .inl (s, b) =>
    match s.mode with
    | .swap_and_pop =>
      match pushback_throwing s e b with
      | .inr t => .inl t
      | .inl (s1, _) =>
        .inr ({ s1 with
                  entries := entry_set s1.entries (to_entity e)
                    (combine (s1.packed.length - 1) e) }, s1.packed.length - 1)
    | .in_place =>
      if s.head = entityMask then
        match pushback_throwing s e b with
        | .inr t => .inl t
        | .inl (s1, _) =>
          .inr ({ s1 with
                    entries := entry_set s1.entries (to_entity e)
                      (combine (s1.packed.length - 1) e) }, s1.packed.length - 1)
      else
        let pos := s.head
        let link := to_entity (s.packed.getD pos 0)
        .inr ({ s with
                  entries := entry_set s.entries (to_entity e) (combine pos e),
                  packed := s.packed.set pos e,
                  head := link }, pos)
    | .swap_only =>
      match sparse_lookup s (to_entity e) with
      | none =>
        match pushback_throwing s e b with
        | .inr t => .inl t
        | .inl (s1, _) =>
          let s2 := { s1 with
                        entries := entry_set s1.entries (to_entity e)
                          (combine (s1.packed.length - 1) e) }
          let s3 := s2.swap_at (s2.packed.length - 1) s.head
          .inr ({ s3 with head := s.head + 1 }, s.head)
      | some x =>
        let s1 := { s with
                      entries := entry_set s.entries (to_entity e) (combine x e),
                      packed := s.packed.set (to_entity x) e }
        let s2 := s1.swap_at (to_entity x) s.head
        .inr ({ s2 with head := s.head + 1 }, s.head)

/-- Modelled from the spec: `reserve(cap)` under a failing allocator: a
failed reservation of the dense vector leaves the structure untouched. -/
def reserve_throwing (s : sparse_set) (cap budget : ℕ) :
    sparse_set ⊕ sparse_set :=
  if cap ≤ s.cap then .inr s
  else if budget = 0 then .inl s
  else .inr { s with cap := cap }

/-- Typed storage over the sparse set, translated from `basic_storage` in
src/unnamed/part_001: `pagesP` is the length of the payload page vector
(`packed` member, capacity = `pagesP * page_size`) and `elems` maps dense
positions to constructed payload values. -/
structure storage where
  base : sparse_set
  pagesP : ℕ
  elems : List (ℕ × ℕ)
deriving DecidableEq

/-- An empty typed storage; the deletion policy is the component traits'
`in_place_delete` choice (translated from the `basic_storage`
constructor in src/unnamed/part_001). -/
def mkStorage (m : deletion_policy) : storage :=
  ⟨mkSet m, 0, []⟩

/-- Translated from `basic_storage::assure_at_least` (src/unnamed/part_001
lines 249-269): grows the payload page vector to cover a dense position
(payload pages, unlike sparse pages, are allocated densely up to the
requested slot). -/
def assure_payload (st : storage) (pos : ℕ) : storage :=
  if pos / pageSize < st.pagesP then st else { st with pagesP := pos / pageSize + 1 }

/-- Translated from `basic_storage::emplace_element` (src/unnamed/part_001
lines 271-285): the underlying `try_emplace` reserves a dense/sparse slot,
the payload page is assured, then the payload is constructed; if the
construction throws, the base-class `pop` removes the just-reserved slot
and the exception propagates (`.inl` = thrown, `.inr` = succeeded). -/
def emplace_throwing (st : storage) (e v : ℕ) (ctor_throws : Bool) :
    storage ⊕ (storage × ℕ) :=
  let r := push1 st.base e false
  let st1 := assure_payload { st with base := r.1 } r.2
  if ctor_throws then
    .inl { st1 with base := st1.base.erase1 e }
  else
    .inr ({ st1 with elems := entry_set st1.elems r.2 v }, r.2)

/-- Translated from `basic_storage::try_emplace` (src/unnamed/part_001
lines 383-397): the type-erased insertion path; with no value pointer a
non-default-constructible payload yields the end iterator (`none`), with a
value pointer a non-copy-constructible payload yields the end iterator,
otherwise the element is emplaced. -/
def try_emplace_erased (st : storage) (e : ℕ)
    (default_constructible copy_constructible : Bool) (value : Option ℕ) :
    storage × Option ℕ :=
  match value with
  | some v =>
    if copy_constructible then
      match emplace_throwing st e v false with
      | .inl t => (t, none)
      | .inr (t, pos) => (t, some pos)
    else (st, none)
  | none =>
    if default_constructible then
      match emplace_throwing st e 0 false with
      | .inl t => (t, none)
      | .inr (t, pos) => (t, some pos)
    else (st, none)

/-- Translated from `internal::storage_iterator` (src/unnamed/part_001
lines 29-115): the iterator carries an offset into the dense/payload
arrays; the element index is `offset - 1`. -/
structure storage_iterator where
  offset : ℕ
deriving DecidableEq

/-- Translated from `storage_iterator::operator++` (src/unnamed/part_001
lines 58-60): forward iteration decrements the offset. -/
def iter_next (it : storage_iterator) : storage_iterator :=
  ⟨it.offset - 1⟩

/-- Dereference of the iterator at its current index `offset - 1`
(translated from `storage_iterator::operator*` / `index()`). -/
def iter_deref (l : List ℕ) (it : storage_iterator) : ℕ :=
  l.getD (it.offset - 1) 0

/-- The sequence of elements visited from an iterator with the given
offset down to the end iterator (offset zero), stepping with
`iter_next`. -/
def collect (l : List ℕ) : ℕ → List ℕ
  | 0 => []
  | o + 1 => iter_deref l ⟨o + 1⟩ :: collect l o

/-- The full begin-to-end traversal of a dense array: `begin()` has offset
`size` and `end()` has offset zero. -/
def iterate (l : List ℕ) : List ℕ := collect l l.length

/-- Swap of two dense positions (the dense-array effect of
`swap_elements`). -/
def swapPos (l : List ℕ) (i j : ℕ) : List ℕ :=
  let a := l.getD i 0
  let b := l.getD j 0
  (l.set i b).set j a

/-- Modelled from the spec (section 4.3): the single-pass sweep of
`sort_as`: scan the reference in iteration order; each reference entity
present in the target is swapped to the target's write cursor, which
starts at the target's begin (highest dense position) and advances
(descends) after each placement; the sweep stops when either range is
exhausted.  `c` is one past the cursor's dense position. -/
def sortAsAux : List ℕ → List ℕ → ℕ → List ℕ
  | t, [], _ => t
  | t, _ :: _, 0 => t
  | t, r :: rs, c + 1 =>
    if r ∈ t then sortAsAux (swapPos t (t.indexOf r) c) rs c
    else sortAsAux t rs (c + 1)

/-- Modelled from the spec: `sort_as` on dense arrays; `rs` is the
reference's iteration order (its dense array read from `begin()` to
`end()`, that is in reverse dense order). -/
def sortAs (t rs : List ℕ) : List ℕ := sortAsAux t rs t.length

/-- Modelled from the spec: `sort_as(reference)` on sparse sets: the dense
array is reordered by the sweep and the sparse entries recomputed
(precondition `sort_as_allowed`). -/
def sparse_set.sort_as (s ref : sparse_set) : sparse_set :=
  let pk := sortAs s.packed (iterate ref.packed)
  { s with packed := pk, entries := rebuild pk 0 }

def escaped (r : storage ⊕ (storage × ℕ)) : storage := Sum.elim id Prod.fst r

def is_thrown (r : storage ⊕ (storage × ℕ)) : Bool :=
  Sum.elim (fun _ => true) (fun _ => false) r

def ps_state (r : sparse_set ⊕ (sparse_set × ℕ)) : sparse_set := Sum.elim id Prod.fst r

def ps_thrown (r : sparse_set ⊕ (sparse_set × ℕ)) : Bool :=
  Sum.elim (fun _ => true) (fun _ => false) r

theorem assure_pages_mode (s : sparse_set) (i : ℕ) : (assure_pages s i).mode = s.mode := rfl

theorem assure_pages_packed (s : sparse_set) (i : ℕ) :
    (assure_pages s i).packed = s.packed := rfl

theorem push1_swap_and_pop (s : sparse_set) (e : ℕ) (f : Bool)
    (h : s.mode = deletion_policy.swap_and_pop) :
    (push1 s e f).1.packed = s.packed ++ [e] ∧
      (push1 s e f).1.mode = deletion_policy.swap_and_pop := by
  unfold push1 push_append
  dsimp only
  rw [assure_pages_mode, h]
  exact ⟨rfl, rfl⟩

theorem pushAll_packed (es : List ℕ) : ∀ s : sparse_set,
    s.mode = deletion_policy.swap_and_pop →
      (pushAll s es).packed = s.packed ++ es ∧
        (pushAll s es).mode = deletion_policy.swap_and_pop := by
  induction es with
  | nil => intro s h; exact ⟨(List.append_nil _).symm, h⟩
  | cons e es ih =>
    intro s h
    have h1 := push1_swap_and_pop s e false h
    have h2 := ih (push1 s e false).1 h1.2
    unfold pushAll at h2 ⊢
    rw [List.foldl_cons]
    refine ⟨?_, h2.2⟩
    rw [h2.1, h1.1, List.append_assoc]
    rfl

theorem collect_eq_reverse_take (l : List ℕ) : ∀ n, n ≤ l.length →
    collect l n = (l.take n).reverse := by
  intro n
  induction n with
  | zero => intro _; rfl
  | succ n ih =>
    intro h
    unfold collect iter_deref
    rw [ih (Nat.le_of_succ_le h)]
    have hn : n < l.length := h
    rw [List.take_succ, List.getElem?_eq_getElem hn]
    simp only [Option.toList_some, List.reverse_append, List.reverse_cons, List.reverse_nil,
      List.nil_append, List.singleton_append, List.getD_eq_getElem?_getD,
      List.getElem?_eq_getElem hn, Nat.add_sub_cancel]
    rfl

theorem iterate_reverse (l : List ℕ) : iterate l = l.reverse := by
  unfold iterate
  rw [collect_eq_reverse_take l l.length (Nat.le_refl _), List.take_length]

/-- C9: for a typed storage whose payload type is not default-constructible,
pushing an entity through the type-erased base interface (try_emplace with
no value pointer) returns the end iterator and leaves the storage
unchanged; likewise for a non-copy-constructible payload when a value
pointer is supplied. -/
theorem try_emplace_erased_unsupported (st : storage) (e : ℕ) (c d : Bool) (v : ℕ) :
    try_emplace_erased st e false c none = (st, none) ∧
      try_emplace_erased st e d false (some v) = (st, none) :=
  ⟨rfl, rfl⟩

/-- C10: forward iteration via begin()..end() visits the dense array in
reverse dense order: the traversal of any dense array is its reverse;
after pushing entities into an empty (swap-and-pop) set the dense array is
the push sequence, so the iteration sequence is that sequence reversed
(begin() yields the most recently appended element); and the iterator
steps by decrementing its offset. -/
theorem iteration_visits_reverse_dense_order (es : List ℕ) :
    (∀ l : List ℕ, iterate l = l.reverse) ∧
      (pushAll (mkSet deletion_policy.swap_and_pop) es).packed = es ∧
      iterate (pushAll (mkSet deletion_policy.swap_and_pop) es).packed = es.reverse ∧
      (∀ it : storage_iterator, (iter_next it).offset = it.offset - 1) := by
  have hp := pushAll_packed es (mkSet deletion_policy.swap_and_pop) rfl
  have hp1 : (pushAll (mkSet deletion_policy.swap_and_pop) es).packed = es := by
    rw [hp.1]; rfl
  exact ⟨iterate_reverse, hp1, by rw [hp1, iterate_reverse], fun _ => rfl⟩

/-- C6: a sparse set using the in-place deletion policy that is not
contiguous (holds a tombstone) fails the precondition of sort_as (fatal
assertion in debug builds), and for an in-place set that is contiguous
this error branch is unreachable. -/
theorem sort_as_refuses_in_place_tombstones (s : sparse_set)
    (h : s.mode = deletion_policy.in_place) :
    (s.contiguous = false → sort_as_allowed s = false) ∧
      (s.contiguous = true → sort_as_allowed s = true) := by
  unfold sparse_set.contiguous sort_as_allowed
  rw [h]
  simp

/-- C6 witness: a concrete in-place set holding a tombstone is not
contiguous and fails the sort_as precondition; after compacting it the
precondition holds again. -/
theorem sort_as_refuses_in_place_tombstones_witness :
    sort_as_allowed ((pushAll (mkSet deletion_policy.in_place) [3, 42]).erase1 42) = false ∧
      sort_as_allowed (((pushAll (mkSet deletion_policy.in_place) [3, 42]).erase1 42).compact) = true :=
  ⟨(sort_as_refuses_in_place_tombstones _ (by decide)).1 (by decide),
    (sort_as_refuses_in_place_tombstones _ (by decide)).2 (by decide)⟩

theorem lookup_some_page (s : sparse_set) (i x : ℕ)
    (h : sparse_lookup s i = some x) :
    s.pages.getD (i / pageSize) false = true := by
  unfold sparse_lookup at h
  by_cases hp : s.pages.getD (i / pageSize) false = true
  · exact hp
  · rw [if_neg hp] at h
    exact absurd h (by simp)

/-- C8: for an entity whose index is on record, bump(e) overwrites the
generation on record for index(e) with version(e) and returns it, after
which current of any handle with that index equals version(e) and the
size is unchanged; bump fails when the index is unused or when the
requested generation is the tombstone generation, in particular for
bump(null) and bump(tombstone). -/
theorem bump_overwrites_generation (s : sparse_set) (e x : ℕ)
    (hx : sparse_lookup s (to_entity e) = some x)
    (hv : to_version e ≠ versionMask) :
    (s.bump e).isSome = true ∧
      (s.bump e).map Prod.snd = some (to_version e) ∧
      (s.bump e).map (fun p => p.1.current e) = some (to_version e) ∧
      (s.bump e).map (fun p => p.1.size) = some s.size ∧
      (∀ (s' : sparse_set) (f : ℕ), sparse_lookup s' (to_entity f) = none → s'.bump f = none) ∧
      (∀ (s' : sparse_set) (f : ℕ), to_version f = versionMask → s'.bump f = none) ∧
      (∀ s' : sparse_set, s'.bump nullv = none ∧ s'.bump tombv = none) := by
  have hpage := lookup_some_page s (to_entity e) x hx
  have hbump : s.bump e = some ({ s with
      entries := entry_set s.entries (to_entity e) (combine x e),
      packed := s.packed.set (to_entity x) e }, to_version e) := by
    unfold sparse_set.bump
    rw [if_neg hv, hx]
  have hfail1 : ∀ (s' : sparse_set) (f : ℕ),
      sparse_lookup s' (to_entity f) = none → s'.bump f = none := by
    intro s' f hf
    unfold sparse_set.bump
    by_cases h1 : to_version f = versionMask
    · rw [if_pos h1]
    · rw [if_neg h1, hf]
  have hfail2 : ∀ (s' : sparse_set) (f : ℕ),
      to_version f = versionMask → s'.bump f = none := by
    intro s' f hf
    unfold sparse_set.bump
    rw [if_pos hf]
  refine ⟨by rw [hbump]; rfl, by rw [hbump]; rfl, ?_,
    by rw [hbump]; simp only [Option.map_some']; unfold sparse_set.size; rw [List.length_set],
    hfail1, hfail2, fun s' => ⟨hfail2 s' nullv (by decide), hfail2 s' tombv (by decide)⟩⟩
  rw [hbump]
  simp only [Option.map_some']
  unfold sparse_set.current sparse_lookup
  simp only
  rw [hpage, if_pos rfl, find_entry_set_self]
  simp [to_version_combine]

/-- C8 witness: bump on a concrete three-element set, restoring generation
one on index 42. -/
theorem bump_overwrites_generation_witness :
    ((pushAll (mkSet deletion_policy.swap_and_pop) [3, 42, construct 9 3]).bump
        (construct 42 1)).isSome = true ∧
      ((pushAll (mkSet deletion_policy.swap_and_pop) [3, 42, construct 9 3]).bump
          (construct 42 1)).map Prod.snd = some (to_version (construct 42 1)) ∧
      ((pushAll (mkSet deletion_policy.swap_and_pop) [3, 42, construct 9 3]).bump
          (construct 42 1)).map (fun p => p.1.current (construct 42 1)) =
        some (to_version (construct 42 1)) := by
  have h := bump_overwrites_generation (pushAll (mkSet deletion_policy.swap_and_pop)
    [3, 42, construct 9 3]) (construct 42 1) (combine 1 42) (by decide) (by decide)
  exact ⟨h.1, h.2.1, h.2.2.1⟩

theorem index_of_eq (s : sparse_set) (e x : ℕ)
    (hx : sparse_lookup s (to_entity e) = some x) : s.index_of e = to_entity x := by
  unfold sparse_set.index_of
  rw [hx]

theorem bump_eq (s : sparse_set) (e x : ℕ)
    (hx : sparse_lookup s (to_entity e) = some x) (hv : to_version e ≠ versionMask) :
    s.bump e = some ({ s with
        entries := entry_set s.entries (to_entity e) (combine x e),
        packed := s.packed.set (to_entity x) e }, to_version e) := by
  unfold sparse_set.bump
  rw [if_neg hv, hx]

theorem to_entity_x_lt (x : ℕ) : to_entity x % 2 ^ 20 = to_entity x :=
  Nat.mod_eq_of_lt (to_entity_lt x)

/-- C1: for an entity contained in a sparse set under the swap-only
deletion policy, erase(e) leaves contains(e) false while contains(next(e))
is true (the generation at e's index is bumped in place, skipping the
tombstone generation) and size() is unchanged (the slot stays allocated
for reuse). -/
theorem swap_only_erase_bumps_generation (s : sparse_set) (e x : ℕ)
    (hmode : s.mode = deletion_policy.swap_only)
    (hx : sparse_lookup s (to_entity e) = some x)
    (hver : to_version x = to_version e)
    (hvm : to_version e ≠ versionMask)
    (hpos : to_entity x < s.packed.length)
    (hpk : s.packed.getD (to_entity x) 0 = e)
    (hhead : s.head ≤ s.packed.length)
    (hlen : s.packed.length ≤ entityMask)
    (huniq : ∀ j, j < s.packed.length → j ≠ to_entity x →
      to_entity (s.packed.getD j 0) ≠ to_entity e) :
    s.contains e = true ∧
      (s.erase1 e).contains e = false ∧
      (s.erase1 e).contains (nextv e) = true ∧
      (s.erase1 e).size = s.size := by
  have hpage := lookup_some_page s (to_entity e) x hx
  have hxmask : to_entity x ≠ entityMask := by
    unfold entityMask at hlen ⊢
    omega
  have hcont : s.contains e = true := by
    unfold sparse_set.contains
    rw [hx]
    simp [hver, hxmask]
  have hnb := bump_eq s (nextv e) x (by rw [to_entity_nextv]; exact hx)
    (to_version_nextv_ne_mask e)
  rw [to_entity_nextv] at hnb
  have hverne : to_version (nextv e) ≠ to_version e := to_version_nextv_ne e
  have herase : s.erase1 e = swap_only_one s e := by
    unfold sparse_set.erase1
    rw [hmode]
  rw [herase]
  unfold swap_only_one
  rw [index_of_eq s e x hx, hnb]
  dsimp only
  by_cases hc : to_entity x < s.head
  · rw [if_pos hc]
    have hh1 : s.head - 1 < s.packed.length := by omega
    have hh1m : s.head - 1 ≠ entityMask := by unfold entityMask at hlen ⊢; omega
    unfold sparse_set.swap_at
    dsimp only
    rw [getD_set_self _ _ _ _ hpos]
    by_cases hq : s.head - 1 = to_entity x
    · rw [hq, getD_set_self _ _ _ _ hpos, to_entity_nextv]
      refine ⟨hcont, ?_, ?_, ?_⟩
      · unfold sparse_set.contains sparse_lookup
        dsimp only
        rw [hpage, if_pos rfl, find_entry_set_self]
        simp only [Option.map_some']
        rw [to_version_combine]
        simp [hverne]
      · unfold sparse_set.contains sparse_lookup
        dsimp only
        rw [to_entity_nextv, hpage, if_pos rfl, find_entry_set_self]
        simp only [Option.map_some']
        rw [to_version_combine, to_entity_combine, to_entity_x_lt]
        simp [hxmask]
      · unfold sparse_set.size
        dsimp only
        rw [List.length_set, List.length_set, List.length_set]
    · have hf : (s.packed.set (to_entity x) (nextv e)).getD (s.head - 1) 0 =
          s.packed.getD (s.head - 1) 0 := by
        exact getD_set_ne _ _ _ _ _ (fun h => hq h.symm)
      rw [hf, to_entity_nextv]
      have hfk : to_entity (s.packed.getD (s.head - 1) 0) ≠ to_entity e :=
        huniq (s.head - 1) hh1 hq
      refine ⟨hcont, ?_, ?_, ?_⟩
      · unfold sparse_set.contains sparse_lookup
        dsimp only
        rw [hpage, if_pos rfl, find_entry_set_ne _ _ _ _ hfk.symm, find_entry_set_self]
        simp only [Option.map_some']
        rw [to_version_combine]
        simp [hverne]
      · unfold sparse_set.contains sparse_lookup
        dsimp only
        rw [to_entity_nextv, hpage, if_pos rfl, find_entry_set_ne _ _ _ _ hfk.symm,
          find_entry_set_self]
        simp only [Option.map_some']
        rw [to_version_combine, to_entity_combine]
        have : (s.head - 1) % 2 ^ 20 = s.head - 1 := by
          apply Nat.mod_eq_of_lt
          unfold entityMask at hlen
          omega
        rw [this]
        simp [hh1m]
      · unfold sparse_set.size
        dsimp only
        rw [List.length_set, List.length_set, List.length_set]
  · rw [if_neg hc]
    refine ⟨hcont, ?_, ?_, ?_⟩
    · unfold sparse_set.contains sparse_lookup
      dsimp only
      rw [hpage, if_pos rfl, find_entry_set_self]
      simp only [Option.map_some']
      rw [to_version_combine]
      simp [hverne]
    · unfold sparse_set.contains sparse_lookup
      dsimp only
      rw [to_entity_nextv, hpage, if_pos rfl, find_entry_set_self]
      simp only [Option.map_some']
      rw [to_version_combine, to_entity_combine, show x % 2 ^ 20 = to_entity x from rfl]
      simp [hxmask]
    · unfold sparse_set.size
      dsimp only
      rw [List.length_set]

/-- C1 witness: erasing entity 3 from a concrete two-element swap-only
set bumps its generation in place. -/
theorem swap_only_erase_bumps_generation_witness :
    (pushAll (mkSet deletion_policy.swap_only) [3, 42]).contains 3 = true ∧
      ((pushAll (mkSet deletion_policy.swap_only) [3, 42]).erase1 3).contains 3 = false ∧
      ((pushAll (mkSet deletion_policy.swap_only) [3, 42]).erase1 3).contains (nextv 3) = true ∧
      ((pushAll (mkSet deletion_policy.swap_only) [3, 42]).erase1 3).size =
        (pushAll (mkSet deletion_policy.swap_only) [3, 42]).size :=
  swap_only_erase_bumps_generation (pushAll (mkSet deletion_policy.swap_only) [3, 42]) 3 0
    (by decide) (by decide) (by decide) (by decide) (by decide) (by decide) (by decide)
    (by decide) (by decide)

theorem mem_of_getD (l : List ℕ) (j y : ℕ) (hj : j < l.length) (he : l.getD j 0 = y) :
    y ∈ l := by
  rw [List.getD_eq_getElem l 0 hj] at he
  rw [← he]
  exact List.getElem_mem hj

theorem rebuild_find (l : List ℕ) : ∀ (start e' : ℕ), e' ∈ l →
    (∀ y ∈ l, to_entity y = to_entity e' → y = e') →
    ∃ m, (rebuild l start).find? (fun p => p.1 == to_entity e') =
        some (to_entity e', combine m e') ∧ start ≤ m ∧ m < start + l.length := by
  induction l with
  | nil => intro start e' h1 _; exact absurd h1 (List.not_mem_nil e')
  | cons x xs ih =>
    intro start e' h1 h2
    by_cases hxk : to_entity x = to_entity e'
    · have hxe : x = e' := h2 x (List.mem_cons_self x xs) hxk
      refine ⟨start, ?_, Nat.le_refl _, by simp⟩
      unfold rebuild
      rw [List.find?_cons]
      have : (to_entity x == to_entity e') = true := by simp [hxk]
      rw [this]
      rw [hxk, hxe]
    · have h1' : e' ∈ xs := by
        rcases List.mem_cons.mp h1 with h | h
        · exact absurd (by rw [h]) hxk
        · exact h
      have h2' : ∀ y ∈ xs, to_entity y = to_entity e' → y = e' := fun y hy => h2 y (List.mem_cons_of_mem x hy)
      obtain ⟨m, hm, hm1, hm2⟩ := ih (start + 1) e' h1' h2'
      refine ⟨m, ?_, by omega, by simp; omega⟩
      unfold rebuild
      rw [List.find?_cons]
      have : (to_entity x == to_entity e') = false := by simp [hxk]
      rw [this]
      exact hm

theorem to_version_tombv : to_version tombv = versionMask := by decide

/-- C2: for an entity contained in a sparse set under the in-place
deletion policy, erase(e) leaves size() unchanged and current(e) equal to
the tombstone generation, and a subsequent compact() reduces size() to the
number of live (non-tombstone) dense entries while preserving containment
of every surviving entity. -/
theorem in_place_erase_tombstone_and_compact (s : sparse_set) (e x e' x' : ℕ)
    (hmode : s.mode = deletion_policy.in_place)
    (hx : sparse_lookup s (to_entity e) = some x)
    (hver : to_version x = to_version e)
    (hpos : to_entity x < s.packed.length)
    (hpk : s.packed.getD (to_entity x) 0 = e)
    (hx' : sparse_lookup s (to_entity e') = some x')
    (hver' : to_version x' = to_version e')
    (hpos' : to_entity x' < s.packed.length)
    (hpk' : s.packed.getD (to_entity x') 0 = e')
    (hvm' : to_version e' ≠ versionMask)
    (hk : to_entity e' ≠ to_entity e)
    (huniq : ∀ y ∈ s.packed, to_entity y = to_entity e' → y = e')
    (hlen : s.packed.length ≤ entityMask) :
    s.contains e = true ∧ s.contains e' = true ∧
      (s.erase1 e).size = s.size ∧
      (s.erase1 e).current e = versionMask ∧
      ((s.erase1 e).compact).size =
        ((s.erase1 e).packed.filter (fun y => to_version y != versionMask)).length ∧
      ((s.erase1 e).compact).contains e' = true := by
  have hpage := lookup_some_page s (to_entity e) x hx
  have hpage' := lookup_some_page s (to_entity e') x' hx'
  have hxmask : to_entity x ≠ entityMask := by unfold entityMask at hlen ⊢; omega
  have hxmask' : to_entity x' ≠ entityMask := by unfold entityMask at hlen ⊢; omega
  have hcont : s.contains e = true := by
    unfold sparse_set.contains
    rw [hx]
    simp [hver, hxmask]
  have hcont' : s.contains e' = true := by
    unfold sparse_set.contains
    rw [hx']
    simp [hver', hxmask']
  have herase : s.erase1 e = in_place_one s e := by
    unfold sparse_set.erase1
    rw [hmode]
  rw [herase]
  unfold in_place_one
  rw [index_of_eq s e x hx]
  dsimp only
  have hppne : to_entity x' ≠ to_entity x := by
    intro hcc
    apply hk
    rw [← hpk', ← hpk, hcc]
  have hsize : (s.packed.set (to_entity x) (combine s.head tombv)).length =
      s.packed.length := List.length_set _ _ _
  refine ⟨hcont, hcont', hsize, ?_, ?_, ?_⟩
  · unfold sparse_set.current sparse_lookup
    dsimp only
    rw [hpage, if_pos rfl, find_entry_erase_self]
    rfl
  · unfold sparse_set.compact
    dsimp only
    rw [hmode]
    rfl
  · unfold sparse_set.compact
    dsimp only
    rw [hmode]
    dsimp only
    set pk1 := s.packed.set (to_entity x) (combine s.head tombv) with hpk1
    set live := pk1.filter (fun y => to_version y != versionMask) with hlive
    have hmem : e' ∈ pk1 := by
      apply mem_of_getD pk1 (to_entity x') e'
      · rw [hsize]; exact hpos'
      · rw [hpk1, getD_set_ne _ _ _ _ _ (fun h => hppne h.symm)]
        exact hpk'
    have hmem2 : e' ∈ live := by
      rw [hlive]
      apply List.mem_filter.mpr
      exact ⟨hmem, by simp [hvm']⟩
    have h2 : ∀ y ∈ live, to_entity y = to_entity e' → y = e' := by
      intro y hy hyk
      have hy1 := List.mem_filter.mp hy
      have hyv : to_version y ≠ versionMask := by
        have := hy1.2
        simp at this
        exact this
      rcases List.mem_or_eq_of_mem_set hy1.1 with h | h
      · exact huniq y h hyk
      · exfalso
        apply hyv
        rw [h, to_version_combine, to_version_tombv]
    obtain ⟨m, hm, _, hm2⟩ := rebuild_find live 0 e' hmem2 h2
    have hmlen : m < s.packed.length := by
      have := List.length_filter_le (fun y => to_version y != versionMask) pk1
      rw [← hlive] at this
      rw [hpk1] at this
      rw [List.length_set] at this
      omega
    have hmmask : m ≠ entityMask := by unfold entityMask at hlen ⊢; omega
    unfold sparse_set.contains sparse_lookup
    dsimp only
    rw [hpage', if_pos rfl, hm]
    simp only [Option.map_some']
    rw [to_version_combine, to_entity_combine]
    have : m % 2 ^ 20 = m := by
      apply Nat.mod_eq_of_lt
      unfold entityMask at hlen
      omega
    rw [this]
    simp [hmmask]

/-- C2 witness: a concrete in-place set holding 3 and 42; erasing 42 keeps
size 2 with a tombstone generation on record, and compacting shrinks the
set to the single live entity 3, still contained. -/
theorem in_place_erase_tombstone_and_compact_witness :
    (pushAll (mkSet deletion_policy.in_place) [3, 42]).contains 42 = true ∧
      (pushAll (mkSet deletion_policy.in_place) [3, 42]).contains 3 = true ∧
      ((pushAll (mkSet deletion_policy.in_place) [3, 42]).erase1 42).size =
        (pushAll (mkSet deletion_policy.in_place) [3, 42]).size ∧
      ((pushAll (mkSet deletion_policy.in_place) [3, 42]).erase1 42).current 42 = versionMask ∧
      (((pushAll (mkSet deletion_policy.in_place) [3, 42]).erase1 42).compact).size =
        (((pushAll (mkSet deletion_policy.in_place) [3, 42]).erase1 42).packed.filter
          (fun y => to_version y != versionMask)).length ∧
      (((pushAll (mkSet deletion_policy.in_place) [3, 42]).erase1 42).compact).contains 3 = true :=
  in_place_erase_tombstone_and_compact (pushAll (mkSet deletion_policy.in_place) [3, 42])
    42 (combine 1 42) 3 (combine 0 3)
    (by decide) (by decide) (by decide) (by decide) (by decide) (by decide) (by decide)
    (by decide) (by decide) (by decide) (by decide) (by decide) (by decide)

theorem find_filter_free (es : List (ℕ × ℕ)) (k : ℕ)
    (h : ∀ kv ∈ es, kv.1 ≠ k) : es.filter (fun p => p.1 != k) = es := by
  apply List.filter_eq_self.mpr
  intro kv hkv
  simp [h kv hkv]

theorem getD_concat_self (l : List ℕ) (a d : ℕ) : (l ++ [a]).getD l.length d = a := by
  induction l with
  | nil => rfl
  | cons x xs ih => simpa using ih

theorem set_concat_self (l : List ℕ) (a b : ℕ) : (l ++ [a]).set l.length b = l ++ [b] := by
  induction l with
  | nil => rfl
  | cons x xs ih => simpa using ih

/-- C3 counterexample: for an in-place-policy typed storage, a throwing
payload construction does not leave the storage exactly as before the
call: emplacing into an empty storage whose payload constructor throws
leaves size() = 1 (a retired tombstone slot) instead of 0. -/
theorem emplace_throwing_in_place_not_restored :
    is_thrown (emplace_throwing (mkStorage deletion_policy.in_place) 3 7 true) = true ∧
      (escaped (emplace_throwing (mkStorage deletion_policy.in_place) 3 7 true)).base.size = 1 ∧
      (mkStorage deletion_policy.in_place).base.size = 0 ∧
      (escaped (emplace_throwing (mkStorage deletion_policy.in_place) 3 7 true)).base.packed =
        [tombv] ∧
      (escaped (emplace_throwing
        (mkStorage deletion_policy.in_place) 3 7 true)).base.contains 3 = false := by
  refine ⟨rfl, rfl, rfl, by decide, by decide⟩

theorem assure_pages_target (s : sparse_set) (i : ℕ) :
    (assure_pages s i).pages.getD (i / pageSize) false = true := by
  unfold assure_pages
  dsimp only
  by_cases h : i / pageSize < s.pages.length
  · rw [if_pos h, List.getD_eq_getElem?_getD, List.getElem?_set_self h]
    rfl
  · rw [if_neg h]
    have hlt : i / pageSize <
        (s.pages ++ List.replicate (i / pageSize + 1 - s.pages.length) false).length := by
      rw [List.length_append, List.length_replicate]
      omega
    rw [List.getD_eq_getElem?_getD, List.getElem?_set_self hlt]
    rfl

theorem assure_payload_base (st : storage) (pos : ℕ) :
    (assure_payload st pos).base = st.base := by
  unfold assure_payload
  split <;> rfl

theorem assure_payload_elems (st : storage) (pos : ℕ) :
    (assure_payload st pos).elems = st.elems := by
  unfold assure_payload
  split <;> rfl

theorem escaped_emplace_base (st : storage) (e v : ℕ) :
    (escaped (emplace_throwing st e v true)).base =
      ((push1 st.base e false).1).erase1 e := by
  unfold emplace_throwing escaped
  simp only [if_pos]
  dsimp only [Sum.elim, id_eq]
  rw [assure_payload_base]

theorem escaped_emplace_elems (st : storage) (e v : ℕ) :
    (escaped (emplace_throwing st e v true)).elems = st.elems := by
  unfold emplace_throwing escaped
  simp only [if_pos]
  dsimp only [Sum.elim, id_eq]
  exact assure_payload_elems _ _

theorem entry_erase_entry_set (es : List (ℕ × ℕ)) (k v : ℕ) :
    entry_erase (entry_set es k v) k = entry_erase es k := by
  unfold entry_erase entry_set
  rw [List.filter_cons]
  have h1 : ((k, v).1 != k) = false := by simp
  rw [h1]
  simp only [Bool.false_eq_true, if_false]
  rw [List.filter_filter]
  congr 1
  funext a
  exact Bool.and_self _

/-- C3 (amended): if payload construction throws during emplace(e) of a
not-contained entity, the entity is not left contained and the payload
array is untouched; under the swap-and-pop policy the dense array, sparse
entries, free-list head and size are exactly restored (only page
allocations performed before the failure are retained); under the
in-place policy with an empty free list the reserved slot is instead
retired as a tombstone appended at the back, so size() grows by one. -/
theorem emplace_throwing_rolls_back (st : storage) (e v : ℕ)
    (hfree : ∀ kv ∈ st.base.entries, kv.1 ≠ to_entity e)
    (hlen : st.base.packed.length < 2 ^ 20) :
    (st.base.mode = deletion_policy.swap_and_pop →
      is_thrown (emplace_throwing st e v true) = true ∧
        (escaped (emplace_throwing st e v true)).base.packed = st.base.packed ∧
        (escaped (emplace_throwing st e v true)).base.entries = st.base.entries ∧
        (escaped (emplace_throwing st e v true)).base.head = st.base.head ∧
        (escaped (emplace_throwing st e v true)).base.size = st.base.size ∧
        (escaped (emplace_throwing st e v true)).elems = st.elems ∧
        (escaped (emplace_throwing st e v true)).base.contains e = false) ∧
    (st.base.mode = deletion_policy.in_place → st.base.head = entityMask →
      is_thrown (emplace_throwing st e v true) = true ∧
        (escaped (emplace_throwing st e v true)).base.packed =
          st.base.packed ++ [combine entityMask tombv] ∧
        (escaped (emplace_throwing st e v true)).base.entries = st.base.entries ∧
        (escaped (emplace_throwing st e v true)).base.size = st.base.size + 1 ∧
        (escaped (emplace_throwing st e v true)).elems = st.elems ∧
        (escaped (emplace_throwing st e v true)).base.contains e = false) := by
  have hnone : st.base.entries.find? (fun p => p.1 == to_entity e) = none := by
    rw [List.find?_eq_none]
    intro kv hkv
    simp [hfree kv hkv]
  constructor
  · intro h
    have hP : push1 st.base e false =
        ({ pages := (assure_pages st.base (to_entity e)).pages,
           entries := entry_set st.base.entries (to_entity e)
             (combine st.base.packed.length e),
           packed := st.base.packed ++ [e],
           cap := if st.base.packed.length = st.base.cap then max 1 (2 * st.base.cap)
             else st.base.cap,
           mode := deletion_policy.swap_and_pop,
           head := st.base.head }, st.base.packed.length) := by
      unfold push1 push_append
      dsimp only
      rw [assure_pages_mode, h]
      rfl
    have hfinal : ((push1 st.base e false).1).erase1 e =
        { pages := (assure_pages st.base (to_entity e)).pages,
          entries := st.base.entries,
          packed := st.base.packed,
          cap := if st.base.packed.length = st.base.cap then max 1 (2 * st.base.cap)
            else st.base.cap,
          mode := deletion_policy.swap_and_pop,
          head := st.base.head } := by
      rw [hP]
      dsimp only
      unfold sparse_set.erase1
      dsimp only
      unfold swap_and_pop_one sparse_set.index_of sparse_lookup
      dsimp only
      rw [assure_pages_target, if_pos rfl, find_entry_set_self]
      simp only [Option.map_some']
      rw [to_entity_combine, Nat.mod_eq_of_lt hlen]
      have hlen1 : (st.base.packed ++ [e]).length - 1 = st.base.packed.length := by simp
      rw [hlen1, getD_concat_self, set_concat_self, List.dropLast_concat,
        entry_erase_entry_set, entry_erase_entry_set]
      unfold entry_erase
      rw [find_filter_free _ _ hfree]
    refine ⟨rfl, ?_, ?_, ?_, ?_, escaped_emplace_elems st e v, ?_⟩
    · rw [escaped_emplace_base, hfinal]
    · rw [escaped_emplace_base, hfinal]
    · rw [escaped_emplace_base, hfinal]
    · unfold sparse_set.size
      rw [escaped_emplace_base, hfinal]
    · rw [escaped_emplace_base, hfinal]
      unfold sparse_set.contains sparse_lookup
      dsimp only
      rw [assure_pages_target, if_pos rfl, hnone]
      rfl
  · intro h h2
    have hP : push1 st.base e false =
        ({ pages := (assure_pages st.base (to_entity e)).pages,
           entries := entry_set st.base.entries (to_entity e)
             (combine st.base.packed.length e),
           packed := st.base.packed ++ [e],
           cap := if st.base.packed.length = st.base.cap then max 1 (2 * st.base.cap)
             else st.base.cap,
           mode := deletion_policy.in_place,
           head := st.base.head }, st.base.packed.length) := by
      unfold push1 push_append
      dsimp only
      rw [assure_pages_mode, h]
      rw [if_pos (Or.inl (show (assure_pages st.base (to_entity e)).head = entityMask from h2))]
      rfl
    have hfinal : ((push1 st.base e false).1).erase1 e =
        { pages := (assure_pages st.base (to_entity e)).pages,
          entries := st.base.entries,
          packed := st.base.packed ++ [combine entityMask tombv],
          cap := if st.base.packed.length = st.base.cap then max 1 (2 * st.base.cap)
            else st.base.cap,
          mode := deletion_policy.in_place,
          head := st.base.packed.length } := by
      rw [hP]
      dsimp only
      unfold sparse_set.erase1
      dsimp only
      unfold in_place_one sparse_set.index_of sparse_lookup
      dsimp only
      rw [assure_pages_target, if_pos rfl, find_entry_set_self]
      simp only [Option.map_some']
      rw [to_entity_combine, Nat.mod_eq_of_lt hlen]
      rw [show st.base.head = entityMask from h2]
      rw [set_concat_self, entry_erase_entry_set]
      unfold entry_erase
      rw [find_filter_free _ _ hfree]
    refine ⟨rfl, ?_, ?_, ?_, escaped_emplace_elems st e v, ?_⟩
    · rw [escaped_emplace_base, hfinal]
    · rw [escaped_emplace_base, hfinal]
    · unfold sparse_set.size
      rw [escaped_emplace_base, hfinal]
      simp
    · rw [escaped_emplace_base, hfinal]
      unfold sparse_set.contains sparse_lookup
      dsimp only
      rw [assure_pages_target, if_pos rfl, hnone]
      rfl


/-- C3 witness: a throwing payload construction on an empty swap-and-pop
storage restores the dense array, sparse entries and size exactly, and the
entity is not contained. -/
theorem emplace_throwing_rolls_back_witness :
    is_thrown (emplace_throwing (mkStorage deletion_policy.swap_and_pop) 3 7 true) = true ∧
      (escaped (emplace_throwing (mkStorage deletion_policy.swap_and_pop) 3 7 true)).base.packed =
        (mkStorage deletion_policy.swap_and_pop).base.packed ∧
      (escaped (emplace_throwing (mkStorage deletion_policy.swap_and_pop) 3 7 true)).base.entries =
        (mkStorage deletion_policy.swap_and_pop).base.entries ∧
      (escaped (emplace_throwing (mkStorage deletion_policy.swap_and_pop) 3 7 true)).base.head =
        (mkStorage deletion_policy.swap_and_pop).base.head ∧
      (escaped (emplace_throwing (mkStorage deletion_policy.swap_and_pop) 3 7 true)).base.size =
        (mkStorage deletion_policy.swap_and_pop).base.size ∧
      (escaped (emplace_throwing (mkStorage deletion_policy.swap_and_pop) 3 7 true)).elems =
        (mkStorage deletion_policy.swap_and_pop).elems ∧
      (escaped (emplace_throwing
        (mkStorage deletion_policy.swap_and_pop) 3 7 true)).base.contains 3 = false :=
  (emplace_throwing_rolls_back (mkStorage deletion_policy.swap_and_pop) 3 7
    (by decide) (by decide)).1 (by decide)

def spad (s : sparse_set) (idx : ℕ) : List Bool :=
  if idx / pageSize < s.pages.length then s.pages
  else s.pages ++ List.replicate (idx / pageSize + 1 - s.pages.length) false

theorem assure_throwing_eq (s : sparse_set) (idx b : ℕ) : assure_throwing s idx b =
    (if (spad s idx).getD (idx / pageSize) false then
      .inl ({ s with pages := spad s idx }, b)
    else if b = 0 then .inr { s with pages := spad s idx }
    else .inl ({ s with pages := (spad s idx).set (idx / pageSize) true }, b - 1)) := rfl

theorem getD_replicate_false (k i : ℕ) : (List.replicate k false).getD i false = false := by
  induction k generalizing i with
  | zero => rfl
  | succ k ih =>
    cases i with
    | zero => rfl
    | succ j => exact ih j

theorem getD_append_replicate_false (l : List Bool) (k i : ℕ) :
    (l ++ List.replicate k false).getD i false = l.getD i false := by
  induction l generalizing i with
  | nil => simp [getD_replicate_false]
  | cons b bs ih =>
    cases i with
    | zero => rfl
    | succ j => exact ih j

theorem spad_getD (s : sparse_set) (idx i : ℕ) :
    (spad s idx).getD i false = s.pages.getD i false := by
  unfold spad
  split
  · rfl
  · exact getD_append_replicate_false _ _ _

theorem spad_len (s : sparse_set) (idx : ℕ) : s.pages.length ≤ (spad s idx).length := by
  unfold spad
  split
  · exact Nat.le_refl _
  · simp

theorem spad_pg_lt (s : sparse_set) (idx : ℕ) : idx / pageSize < (spad s idx).length := by
  unfold spad
  split
  · assumption
  · rename_i h
    rw [List.length_append, List.length_replicate]
    omega

theorem contains_pages_invariant (s : sparse_set) (P : List Bool)
    (hP : ∀ i, P.getD i false = s.pages.getD i false) (y : ℕ) :
    sparse_set.contains { s with pages := P } y = s.contains y := by
  unfold sparse_set.contains sparse_lookup
  dsimp only
  rw [hP]

theorem contains_pages_set_true (s : sparse_set) (P : List Bool) (pg : ℕ)
    (hP : ∀ i, P.getD i false = s.pages.getD i false)
    (hpg : P.getD pg false = false)
    (hlt : pg < P.length)
    (hfree : ∀ kv ∈ s.entries, s.pages.getD (kv.1 / pageSize) false = true) (y : ℕ) :
    sparse_set.contains { s with pages := P.set pg true } y = s.contains y := by
  unfold sparse_set.contains sparse_lookup
  dsimp only
  by_cases hy : to_entity y / pageSize = pg
  · rw [hy, getD_set_self _ _ _ _ hlt]
    have hold : s.pages.getD pg false = false := by rw [← hP]; exact hpg
    rw [hold]
    have hnone : s.entries.find? (fun p => p.1 == to_entity y) = none := by
      rw [List.find?_eq_none]
      intro kv hkv
      simp only [beq_iff_eq]
      intro hk
      have := hfree kv hkv
      rw [hk, hy, hold] at this
      exact Bool.false_ne_true this
    rw [if_pos rfl, hnone]
    rfl
  · rw [getD_set_ne _ _ _ _ _ (fun hc => hy hc.symm), hP]

/-- C4 counterexample: the claim fails as stated: a single push whose
allocation fails does not leave extent() unchanged; pushing entity 0 into
an empty set with no allocation budget throws, yet extent() grows from 0
to page_size (the page-pointer vector growth is retained), exactly as the
ThrowingAllocator test requires. -/
theorem push_throwing_extent_grows :
    ps_thrown (push_throwing (mkSet deletion_policy.swap_and_pop) 0 0) = true ∧
      (ps_state (push_throwing (mkSet deletion_policy.swap_and_pop) 0 0)).extent = pageSize ∧
      (mkSet deletion_policy.swap_and_pop).extent = 0 ∧ pageSize ≠ 0 := by
  refine ⟨rfl, by decide, rfl, by decide⟩

theorem pb_full_zero (s1 : sparse_set) (e : ℕ) (hc : s1.packed.length = s1.cap) :
    pushback_throwing s1 e 0 = .inr s1 := by
  unfold pushback_throwing
  rw [if_pos hc, if_pos rfl]

theorem pb_full_pos (s1 : sparse_set) (e b : ℕ) (hc : s1.packed.length = s1.cap)
    (hb : b ≠ 0) : pushback_throwing s1 e b =
      .inl ({ s1 with packed := s1.packed ++ [e], cap := max 1 (2 * s1.cap) }, b - 1) := by
  unfold pushback_throwing
  rw [if_pos hc, if_neg hb]

theorem pb_room (s1 : sparse_set) (e b : ℕ) (hc : ¬s1.packed.length = s1.cap) :
    pushback_throwing s1 e b = .inl ({ s1 with packed := s1.packed ++ [e] }, b) := by
  unfold pushback_throwing
  rw [if_neg hc]

theorem pt_sap_throw (s : sparse_set) (e budget : ℕ) (s1 : sparse_set) (b : ℕ)
    (h : assure_throwing s (to_entity e) budget = .inl (s1, b))
    (hm : s1.mode = deletion_policy.swap_and_pop)
    (hpb : pushback_throwing s1 e b = .inr s1) :
    push_throwing s e budget = .inl s1 := by
  rw [push_throwing.eq_def, h]
  dsimp only
  rw [hm, hpb]

theorem pt_sap_ok (s : sparse_set) (e budget : ℕ) (s1 : sparse_set) (b : ℕ)
    (s2 : sparse_set) (b2 : ℕ)
    (h : assure_throwing s (to_entity e) budget = .inl (s1, b))
    (hm : s1.mode = deletion_policy.swap_and_pop)
    (hpb : pushback_throwing s1 e b = .inl (s2, b2)) :
    ps_thrown (push_throwing s e budget) = false := by
  rw [push_throwing.eq_def, h]
  dsimp only
  rw [hm, hpb]
  rfl

theorem pt_ip_throw (s : sparse_set) (e budget : ℕ) (s1 : sparse_set) (b : ℕ)
    (h : assure_throwing s (to_entity e) budget = .inl (s1, b))
    (hm : s1.mode = deletion_policy.in_place)
    (hh : s1.head = entityMask)
    (hpb : pushback_throwing s1 e b = .inr s1) :
    push_throwing s e budget = .inl s1 := by
  rw [push_throwing.eq_def, h]
  dsimp only
  rw [hm]
  rw [if_pos hh, hpb]

theorem pt_ip_ok (s : sparse_set) (e budget : ℕ) (s1 : sparse_set) (b : ℕ)
    (s2 : sparse_set) (b2 : ℕ)
    (h : assure_throwing s (to_entity e) budget = .inl (s1, b))
    (hm : s1.mode = deletion_policy.in_place)
    (hh : s1.head = entityMask)
    (hpb : pushback_throwing s1 e b = .inl (s2, b2)) :
    ps_thrown (push_throwing s e budget) = false := by
  rw [push_throwing.eq_def, h]
  dsimp only
  rw [hm]
  rw [if_pos hh, hpb]
  rfl

theorem pt_ip_reuse (s : sparse_set) (e budget : ℕ) (s1 : sparse_set) (b : ℕ)
    (h : assure_throwing s (to_entity e) budget = .inl (s1, b))
    (hm : s1.mode = deletion_policy.in_place)
    (hh : ¬s1.head = entityMask) :
    ps_thrown (push_throwing s e budget) = false := by
  rw [push_throwing.eq_def, h]
  dsimp only
  rw [hm]
  rw [if_neg hh]
  rfl

theorem pt_sw_throw (s : sparse_set) (e budget : ℕ) (s1 : sparse_set) (b : ℕ)
    (h : assure_throwing s (to_entity e) budget = .inl (s1, b))
    (hm : s1.mode = deletion_policy.swap_only)
    (hl : sparse_lookup s1 (to_entity e) = none)
    (hpb : pushback_throwing s1 e b = .inr s1) :
    push_throwing s e budget = .inl s1 := by
  rw [push_throwing.eq_def, h]
  dsimp only
  rw [hm, hl, hpb]

theorem pt_sw_ok (s : sparse_set) (e budget : ℕ) (s1 : sparse_set) (b : ℕ)
    (s2 : sparse_set) (b2 : ℕ)
    (h : assure_throwing s (to_entity e) budget = .inl (s1, b))
    (hm : s1.mode = deletion_policy.swap_only)
    (hl : sparse_lookup s1 (to_entity e) = none)
    (hpb : pushback_throwing s1 e b = .inl (s2, b2)) :
    ps_thrown (push_throwing s e budget) = false := by
  rw [push_throwing.eq_def, h]
  dsimp only
  rw [hm, hl, hpb]
  rfl

theorem pt_sw_some (s : sparse_set) (e budget : ℕ) (s1 : sparse_set) (b : ℕ) (x : ℕ)
    (h : assure_throwing s (to_entity e) budget = .inl (s1, b))
    (hm : s1.mode = deletion_policy.swap_only)
    (hl : sparse_lookup s1 (to_entity e) = some x) :
    ps_thrown (push_throwing s e budget) = false := by
  rw [push_throwing.eq_def, h]
  dsimp only
  rw [hm, hl]
  rfl

theorem pt_assure_inr (s : sparse_set) (e budget : ℕ) (t : sparse_set)
    (h : assure_throwing s (to_entity e) budget = .inr t) :
    push_throwing s e budget = .inl t := by
  rw [push_throwing.eq_def, h]

/-- C4 (amended): if allocation fails during a single-element operation,
then for reserve the structure is returned exactly unchanged, and for a
single push size(), capacity(), the dense array, the sparse entries, the
free list and every contains(e) answer are unchanged and no entity is
falsely reported present - but extent() may grow, because the page-pointer
vector growth (and a page allocated before the dense append failed) is
retained. -/
theorem push_throwing_keeps_state (s : sparse_set) (e budget : ℕ)
    (hfree : ∀ kv ∈ s.entries, s.pages.getD (kv.1 / pageSize) false = true) :
    (ps_thrown (push_throwing s e budget) = true →
      (ps_state (push_throwing s e budget)).size = s.size ∧
        (ps_state (push_throwing s e budget)).cap = s.cap ∧
        (ps_state (push_throwing s e budget)).packed = s.packed ∧
        (ps_state (push_throwing s e budget)).entries = s.entries ∧
        (ps_state (push_throwing s e budget)).head = s.head ∧
        s.extent ≤ (ps_state (push_throwing s e budget)).extent ∧
        (∀ y, (ps_state (push_throwing s e budget)).contains y = s.contains y)) ∧
    (∀ c t, reserve_throwing s c budget = .inl t → t = s) := by
  constructor
  · intro hthr
    have key : ∀ P : List Bool, s.pages.length ≤ P.length →
        (∀ y, sparse_set.contains { s with pages := P } y = s.contains y) →
        push_throwing s e budget = .inl { s with pages := P } →
        (ps_state (push_throwing s e budget)).size = s.size ∧
          (ps_state (push_throwing s e budget)).cap = s.cap ∧
          (ps_state (push_throwing s e budget)).packed = s.packed ∧
          (ps_state (push_throwing s e budget)).entries = s.entries ∧
          (ps_state (push_throwing s e budget)).head = s.head ∧
          s.extent ≤ (ps_state (push_throwing s e budget)).extent ∧
          (∀ y, (ps_state (push_throwing s e budget)).contains y = s.contains y) := by
      intro P hPl hPc hpt
      rw [hpt]
      refine ⟨rfl, rfl, rfl, rfl, rfl, ?_, hPc⟩
      show s.extent ≤ sparse_set.extent { s with pages := P }
      unfold sparse_set.extent
      dsimp only
      exact Nat.mul_le_mul_right _ hPl
    have hdead : ∀ z : sparse_set × ℕ, push_throwing s e budget = .inr z → False := by
      intro z hz
      rw [hz] at hthr
      exact Bool.false_ne_true hthr
    by_cases hg : (spad s (to_entity e)).getD (to_entity e / pageSize) false = true
    · have ha := assure_throwing_eq s (to_entity e) budget
      rw [if_pos hg] at ha
      have hinv := fun y => contains_pages_invariant s (spad s (to_entity e))
        (fun i => spad_getD s (to_entity e) i) y
      have hPl := spad_len s (to_entity e)
      cases hm : s.mode with
      | swap_and_pop =>
        by_cases hc : s.packed.length = s.cap
        · by_cases hb : budget = 0
          · refine key _ hPl hinv (pt_sap_throw s e budget _ budget ha hm ?_)
            rw [hb]
            exact pb_full_zero _ e hc
          · exfalso
            rw [pt_sap_ok s e budget _ budget _ _ ha hm (pb_full_pos _ e budget hc hb)] at hthr
            exact Bool.false_ne_true hthr
        · exfalso
          rw [pt_sap_ok s e budget _ budget _ _ ha hm (pb_room _ e budget hc)] at hthr
          exact Bool.false_ne_true hthr
      | in_place =>
        by_cases hh : s.head = entityMask
        · by_cases hc : s.packed.length = s.cap
          · by_cases hb : budget = 0
            · refine key _ hPl hinv (pt_ip_throw s e budget _ budget ha hm hh ?_)
              rw [hb]
              exact pb_full_zero _ e hc
            · exfalso
              rw [pt_ip_ok s e budget _ budget _ _ ha hm hh (pb_full_pos _ e budget hc hb)] at hthr
              exact Bool.false_ne_true hthr
          · exfalso
            rw [pt_ip_ok s e budget _ budget _ _ ha hm hh (pb_room _ e budget hc)] at hthr
            exact Bool.false_ne_true hthr
        · exfalso
          rw [pt_ip_reuse s e budget _ budget ha hm hh] at hthr
          exact Bool.false_ne_true hthr
      | swap_only =>
        cases hl : sparse_lookup { s with pages := spad s (to_entity e) } (to_entity e) with
        | none =>
          by_cases hc : s.packed.length = s.cap
          · by_cases hb : budget = 0
            · refine key _ hPl hinv (pt_sw_throw s e budget _ budget ha hm hl ?_)
              rw [hb]
              exact pb_full_zero _ e hc
            · exfalso
              rw [pt_sw_ok s e budget _ budget _ _ ha hm hl (pb_full_pos _ e budget hc hb)] at hthr
              exact Bool.false_ne_true hthr
          · exfalso
            rw [pt_sw_ok s e budget _ budget _ _ ha hm hl (pb_room _ e budget hc)] at hthr
            exact Bool.false_ne_true hthr
        | some x =>
          exfalso
          rw [pt_sw_some s e budget _ budget x ha hm hl] at hthr
          exact Bool.false_ne_true hthr
    · have hpgf : (spad s (to_entity e)).getD (to_entity e / pageSize) false = false := by
        cases hx : (spad s (to_entity e)).getD (to_entity e / pageSize) false
        · rfl
        · exact absurd hx hg
      by_cases hb : budget = 0
      · have ha := assure_throwing_eq s (to_entity e) budget
        rw [if_neg (by rw [hpgf]; exact Bool.false_ne_true), if_pos hb] at ha
        refine key _ (spad_len s (to_entity e))
          (fun y => contains_pages_invariant s (spad s (to_entity e))
            (fun i => spad_getD s (to_entity e) i) y) (pt_assure_inr s e budget _ ha)
      · have ha := assure_throwing_eq s (to_entity e) budget
        rw [if_neg (by rw [hpgf]; exact Bool.false_ne_true), if_neg hb] at ha
        have hcont2 := fun y => contains_pages_set_true s (spad s (to_entity e))
          (to_entity e / pageSize) (fun i => spad_getD s (to_entity e) i) hpgf
          (spad_pg_lt s (to_entity e)) hfree y
        have hlen2 : s.pages.length ≤
            ((spad s (to_entity e)).set (to_entity e / pageSize) true).length := by
          rw [List.length_set]
          exact spad_len _ _
        cases hm : s.mode with
        | swap_and_pop =>
          by_cases hc : s.packed.length = s.cap
          · by_cases hb2 : budget - 1 = 0
            · refine key _ hlen2 hcont2 (pt_sap_throw s e budget _ (budget - 1) ha hm ?_)
              rw [hb2]
              exact pb_full_zero _ e hc
            · exfalso
              rw [pt_sap_ok s e budget _ (budget - 1) _ _ ha hm (pb_full_pos _ e (budget - 1) hc hb2)] at hthr
              exact Bool.false_ne_true hthr
          · exfalso
            rw [pt_sap_ok s e budget _ (budget - 1) _ _ ha hm (pb_room _ e (budget - 1) hc)] at hthr
            exact Bool.false_ne_true hthr
        | in_place =>
          by_cases hh : s.head = entityMask
          · by_cases hc : s.packed.length = s.cap
            · by_cases hb2 : budget - 1 = 0
              · refine key _ hlen2 hcont2 (pt_ip_throw s e budget _ (budget - 1) ha hm hh ?_)
                rw [hb2]
                exact pb_full_zero _ e hc
              · exfalso
                rw [pt_ip_ok s e budget _ (budget - 1) _ _ ha hm hh (pb_full_pos _ e (budget - 1) hc hb2)] at hthr
                exact Bool.false_ne_true hthr
            · exfalso
              rw [pt_ip_ok s e budget _ (budget - 1) _ _ ha hm hh (pb_room _ e (budget - 1) hc)] at hthr
              exact Bool.false_ne_true hthr
          · exfalso
            rw [pt_ip_reuse s e budget _ (budget - 1) ha hm hh] at hthr
            exact Bool.false_ne_true hthr
        | swap_only =>
          cases hl : sparse_lookup { s with
              pages := (spad s (to_entity e)).set (to_entity e / pageSize) true }
              (to_entity e) with
          | none =>
            by_cases hc : s.packed.length = s.cap
            · by_cases hb2 : budget - 1 = 0
              · refine key _ hlen2 hcont2 (pt_sw_throw s e budget _ (budget - 1) ha hm hl ?_)
                rw [hb2]
                exact pb_full_zero _ e hc
              · exfalso
                rw [pt_sw_ok s e budget _ (budget - 1) _ _ ha hm hl (pb_full_pos _ e (budget - 1) hc hb2)] at hthr
                exact Bool.false_ne_true hthr
            · exfalso
              rw [pt_sw_ok s e budget _ (budget - 1) _ _ ha hm hl (pb_room _ e (budget - 1) hc)] at hthr
              exact Bool.false_ne_true hthr
          | some x =>
            exfalso
            rw [pt_sw_some s e budget _ (budget - 1) x ha hm hl] at hthr
            exact Bool.false_ne_true hthr
  · intro c t ht
    unfold reserve_throwing at ht
    split at ht
    · simp at ht
    · split at ht
      · injection ht with hq
        exact hq.symm
      · simp at ht

/-- C4 witness: pushing entity 5 into an empty set with no allocation
budget throws and leaves size, capacity, dense array, entries, free list
and a sample contains answer unchanged; a failed reserve returns the set
untouched. -/
theorem push_throwing_keeps_state_witness :
    (ps_state (push_throwing (mkSet deletion_policy.swap_and_pop) 5 0)).size =
        (mkSet deletion_policy.swap_and_pop).size ∧
      (ps_state (push_throwing (mkSet deletion_policy.swap_and_pop) 5 0)).cap =
        (mkSet deletion_policy.swap_and_pop).cap ∧
      (ps_state (push_throwing (mkSet deletion_policy.swap_and_pop) 5 0)).packed =
        (mkSet deletion_policy.swap_and_pop).packed ∧
      (ps_state (push_throwing (mkSet deletion_policy.swap_and_pop) 5 0)).entries =
        (mkSet deletion_policy.swap_and_pop).entries ∧
      (ps_state (push_throwing (mkSet deletion_policy.swap_and_pop) 5 0)).contains 5 =
        (mkSet deletion_policy.swap_and_pop).contains 5 ∧
      (mkSet deletion_policy.swap_and_pop) = (mkSet deletion_policy.swap_and_pop) := by
  have h := push_throwing_keeps_state (mkSet deletion_policy.swap_and_pop) 5 0
    (by decide)
  have h1 := h.1 (by decide)
  exact ⟨h1.1, h1.2.1, h1.2.2.1, h1.2.2.2.1, h1.2.2.2.2.2.2 5,
    h.2 1 (mkSet deletion_policy.swap_and_pop) (by decide)⟩

theorem swapPos_length (l : List ℕ) (i j : ℕ) : (swapPos l i j).length = l.length := by
  unfold swapPos
  dsimp only
  rw [List.length_set, List.length_set]

theorem set_getD_self_list (l : List ℕ) (i : ℕ) (h : i < l.length) :
    l.set i (l.getD i 0) = l := by
  apply List.ext_getElem?
  intro n
  by_cases hn : n = i
  · rw [hn, List.getElem?_set_self h, List.getD_eq_getElem l 0 h, List.getElem?_eq_getElem h]
  · rw [List.getElem?_set_ne (fun hc => hn hc.symm)]

theorem cons_set_perm (rest : List ℕ) : ∀ (j a : ℕ), j < rest.length →
    (rest.getD j 0 :: rest.set j a).Perm (a :: rest) := by
  induction rest with
  | nil => intro j a hj; exact absurd hj (by simp)
  | cons x xs ih =>
    intro j a hj
    cases j with
    | zero => exact List.Perm.swap a x xs
    | succ j' =>
      have hj' : j' < xs.length := by simpa using hj
      show (xs.getD j' 0 :: x :: xs.set j' a).Perm (a :: x :: xs)
      have p1 : (xs.getD j' 0 :: x :: xs.set j' a).Perm (x :: xs.getD j' 0 :: xs.set j' a) :=
        List.Perm.swap x (xs.getD j' 0) (xs.set j' a)
      have p2 : (x :: xs.getD j' 0 :: xs.set j' a).Perm (x :: a :: xs) := (ih j' a hj').cons x
      have p3 : (x :: a :: xs).Perm (a :: x :: xs) := List.Perm.swap a x xs
      exact (p1.trans p2).trans p3

theorem swap_lt_perm (l : List ℕ) : ∀ (i j : ℕ), i < j → j < l.length →
    (swapPos l i j).Perm l := by
  induction l with
  | nil => intro i j _ hj; exact absurd hj (by simp)
  | cons x xs ih =>
    intro i j hij hj
    cases i with
    | zero =>
      cases j with
      | zero => exact absurd hij (by omega)
      | succ j' =>
        have hj' : j' < xs.length := by simpa using hj
        show ((((x :: xs).set 0 ((x :: xs).getD (j' + 1) 0))).set (j' + 1) x).Perm (x :: xs)
        have h1 : ((x :: xs).set 0 ((x :: xs).getD (j' + 1) 0)) = xs.getD j' 0 :: xs := rfl
        rw [h1]
        show (xs.getD j' 0 :: xs.set j' x).Perm (x :: xs)
        exact cons_set_perm xs j' x hj'
    | succ i' =>
      cases j with
      | zero => exact absurd hij (by omega)
      | succ j' =>
        have hij' : i' < j' := by omega
        have hj' : j' < xs.length := by simpa using hj
        show (x :: (xs.set i' (xs.getD j' 0)).set j' (xs.getD i' 0)).Perm (x :: xs)
        exact (ih i' j' hij' hj').cons x

theorem swapPos_perm (l : List ℕ) (i j : ℕ) (hij : i ≤ j) (hj : j < l.length) :
    (swapPos l i j).Perm l := by
  rcases Nat.lt_or_ge i j with h | h
  · exact swap_lt_perm l i j h hj
  · have hji : i = j := Nat.le_antisymm hij h
    rw [hji]
    unfold swapPos
    dsimp only
    rw [List.set_set, set_getD_self_list l j hj]

theorem drop_set_of_lt (l : List ℕ) : ∀ (i n : ℕ) (x : ℕ), i < n →
    (l.set i x).drop n = l.drop n := by
  induction l with
  | nil => intro i n x _; rfl
  | cons y ys ih =>
    intro i n x hin
    cases i with
    | zero =>
      cases n with
      | zero => exact absurd hin (by omega)
      | succ n' => rfl
    | succ i' =>
      cases n with
      | zero => exact absurd hin (by omega)
      | succ n' => exact ih i' n' x (by omega)

theorem drop_set_cons (l : List ℕ) : ∀ (n : ℕ) (x : ℕ), n < l.length →
    (l.set n x).drop n = x :: l.drop (n + 1) := by
  induction l with
  | nil => intro n x hn; exact absurd hn (by simp)
  | cons y ys ih =>
    intro n x hn
    cases n with
    | zero => rfl
    | succ n' => exact ih n' x (by simpa using hn)

theorem swapPos_drop (l : List ℕ) (pos c : ℕ) (hpc : pos ≤ c) (hc : c < l.length) :
    (swapPos l pos c).drop c = l.getD pos 0 :: l.drop (c + 1) := by
  rcases Nat.lt_or_ge pos c with h | h
  · unfold swapPos
    dsimp only
    rw [drop_set_cons _ c _ (by rw [List.length_set]; exact hc),
      drop_set_of_lt _ pos (c + 1) _ (by omega)]
  · have hq : pos = c := Nat.le_antisymm hpc h
    rw [hq]
    unfold swapPos
    dsimp only
    rw [List.set_set, set_getD_self_list l c hc, List.drop_eq_getElem_cons hc,
      List.getD_eq_getElem l 0 hc]

theorem indexOf_getD (t : List ℕ) (r : ℕ) (hr : r ∈ t) : t.getD (t.indexOf r) 0 = r := by
  have h := List.indexOf_lt_length.mpr hr
  rw [List.getD_eq_getElem t 0 h]
  exact List.getElem_indexOf h

theorem indexOf_lt_of_not_mem_drop : ∀ (t : List ℕ) (c r : ℕ), r ∈ t → r ∉ t.drop c →
    t.indexOf r < c := by
  intro t
  induction t with
  | nil => intro c r hr _; exact absurd hr (by simp)
  | cons x xs ih =>
    intro c r hr hd
    cases c with
    | zero => exact absurd hr hd
    | succ c' =>
      by_cases hx : x = r
      · rw [hx, List.indexOf_cons_self]
        omega
      · rw [List.indexOf_cons_ne _ hx]
        have hr' : r ∈ xs := by
          rcases List.mem_cons.mp hr with h | h
          · exact absurd h.symm hx
          · exact h
        have := ih c' r hr' hd
        omega

theorem sortAsAux_cons_succ (t rs : List ℕ) (r : ℕ) (c : ℕ) :
    sortAsAux t (r :: rs) (c + 1) =
      if r ∈ t then sortAsAux (swapPos t (t.indexOf r) c) rs c
      else sortAsAux t rs (c + 1) := rfl

theorem sortAsAux_zero (t rs : List ℕ) : sortAsAux t rs 0 = t := by
  cases rs <;> rfl

theorem sortAsAux_spec : ∀ (rs t : List ℕ) (c : ℕ), rs.Nodup → c ≤ t.length →
    (∀ r ∈ rs, r ∉ t.drop c) →
    (rs.filter (fun x => decide (x ∈ t))).length ≤ c →
    ∃ w, sortAsAux t rs c =
        w ++ (rs.filter (fun x => decide (x ∈ t))).reverse ++ t.drop c ∧
      w.length = c - (rs.filter (fun x => decide (x ∈ t))).length ∧
      (sortAsAux t rs c).Perm t := by
  intro rs
  induction rs with
  | nil =>
    intro t c _ hc _ _
    refine ⟨t.take c, ?_, ?_, List.Perm.refl t⟩
    · show t = t.take c ++ [].reverse ++ t.drop c
      rw [List.reverse_nil, List.append_nil, List.take_append_drop]
    · rw [List.length_take]
      simp
      omega
  | cons r rs ih =>
    intro t c hnd hc hdrop hslen
    have hnd1 := List.nodup_cons.mp hnd
    cases c with
    | zero =>
      have hs : List.filter (fun x => decide (x ∈ t)) (r :: rs) = [] :=
        List.length_eq_zero.mp (Nat.le_zero.mp hslen)
      refine ⟨[], ?_, ?_, ?_⟩
      · rw [hs, sortAsAux_zero]
        rfl
      · rw [hs]
        rfl
      · rw [sortAsAux_zero]
    | succ c' =>
      have hc' : c' < t.length := by omega
      by_cases hrt : r ∈ t
      · have hfil : List.filter (fun x => decide (x ∈ t)) (r :: rs) =
            r :: List.filter (fun x => decide (x ∈ t)) rs := by
          rw [List.filter_cons]
          simp [hrt]
        have hposlt : t.indexOf r < c' + 1 :=
          indexOf_lt_of_not_mem_drop t (c' + 1) r hrt (hdrop r (List.mem_cons_self r rs))
        have hpos_le : t.indexOf r ≤ c' := by omega
        have hperm2 : (swapPos t (t.indexOf r) c').Perm t :=
          swapPos_perm t (t.indexOf r) c' hpos_le hc'
        have hdropt : (swapPos t (t.indexOf r) c').drop c' = r :: t.drop (c' + 1) := by
          rw [swapPos_drop t (t.indexOf r) c' hpos_le hc', indexOf_getD t r hrt]
        have hstep : sortAsAux t (r :: rs) (c' + 1) =
            sortAsAux (swapPos t (t.indexOf r) c') rs c' := by
          rw [sortAsAux_cons_succ, if_pos hrt]
        have hfc : List.filter (fun x => decide (x ∈ swapPos t (t.indexOf r) c')) rs =
            List.filter (fun x => decide (x ∈ t)) rs := by
          apply List.filter_congr
          intro x _
          simp [hperm2.mem_iff]
        obtain ⟨w, h1, h2, h3⟩ := ih (swapPos t (t.indexOf r) c') c' hnd1.2
          (by rw [swapPos_length]; omega)
          (by
            intro q hq
            rw [hdropt]
            intro hmem
            rcases List.mem_cons.mp hmem with h | h
            · exact hnd1.1 (h ▸ hq)
            · exact hdrop q (List.mem_cons_of_mem r hq) h)
          (by
            rw [hfc]
            rw [hfil] at hslen
            simp only [List.length_cons] at hslen
            omega)
        rw [hfc] at h1 h2
        refine ⟨w, ?_, ?_, ?_⟩
        · rw [hstep, h1, hfil, hdropt, List.reverse_cons]
          rw [List.append_assoc, List.append_assoc, List.append_assoc]
          rfl
        · rw [hfil] at hslen ⊢
          simp only [List.length_cons] at hslen ⊢
          omega
        · rw [hstep]
          exact h3.trans hperm2
      · have hfil : List.filter (fun x => decide (x ∈ t)) (r :: rs) =
            List.filter (fun x => decide (x ∈ t)) rs := by
          rw [List.filter_cons]
          simp [hrt]
        have hstep : sortAsAux t (r :: rs) (c' + 1) = sortAsAux t rs (c' + 1) := by
          rw [sortAsAux_cons_succ, if_neg hrt]
        obtain ⟨w, h1, h2, h3⟩ := ih t (c' + 1) hnd1.2 hc
          (fun q hq => hdrop q (List.mem_cons_of_mem r hq))
          (by rw [← hfil]; exact hslen)
        refine ⟨w, ?_, ?_, ?_⟩
        · rw [hstep, h1, hfil]
        · rw [hfil]
          exact h2
        · rw [hstep]
          exact h3

theorem indexOf_append_left (s w : List ℕ) (u : ℕ) (hu : u ∈ s) :
    (s ++ w).indexOf u = s.indexOf u := by
  induction s with
  | nil => exact absurd hu (by simp)
  | cons a s ih =>
    by_cases ha : a = u
    · rw [List.cons_append, ha, List.indexOf_cons_self, List.indexOf_cons_self]
    · have hu' : u ∈ s := by
        rcases List.mem_cons.mp hu with h | h
        · exact absurd h.symm ha
        · exact h
      rw [List.cons_append, List.indexOf_cons_ne _ ha, List.indexOf_cons_ne _ ha, ih hu']

theorem filter_indexOf_mono : ∀ (rs : List ℕ) (p : ℕ → Bool) (u v : ℕ), rs.Nodup →
    u ∈ rs.filter p → v ∈ rs.filter p → rs.indexOf u < rs.indexOf v →
    (rs.filter p).indexOf u < (rs.filter p).indexOf v := by
  intro rs
  induction rs with
  | nil => intro p u v _ hu _ _; exact absurd hu (by simp)
  | cons x xs ih =>
    intro p u v hnd hu hv hlt
    have hnd1 := List.nodup_cons.mp hnd
    by_cases hx : x = u
    · have hpx : p x = true := by
        have := (List.mem_filter.mp hu).2
        rw [hx]
        exact this
      have hvx : v ≠ x := by
        intro h
        rw [h, hx, List.indexOf_cons_self] at hlt
        omega
      rw [List.filter_cons, if_pos hpx, hx]
      rw [List.indexOf_cons_self]
      have hvne : u ≠ v := by
        intro h
        rw [h] at hlt
        omega
      rw [List.indexOf_cons_ne _ (fun h => hvne h)]
      omega
    · by_cases hxv : x = v
      · exfalso
        rw [← hxv, List.indexOf_cons_self] at hlt
        omega
      · cases hpx : p x with
        | true =>
          rw [List.filter_cons, if_pos hpx] at hu hv ⊢
          have hu' : u ∈ xs.filter p := by
            rcases List.mem_cons.mp hu with h | h
            · exact absurd h.symm hx
            · exact h
          have hv' : v ∈ xs.filter p := by
            rcases List.mem_cons.mp hv with h | h
            · exact absurd h.symm hxv
            · exact h
          rw [List.indexOf_cons_ne _ hx, List.indexOf_cons_ne _ hxv] at hlt
          rw [List.indexOf_cons_ne _ hx, List.indexOf_cons_ne _ hxv]
          have := ih p u v hnd1.2 hu' hv' (by omega)
          omega
        | false =>
          rw [List.filter_cons, if_neg (by rw [hpx]; exact Bool.false_ne_true)] at hu hv ⊢
          rw [List.indexOf_cons_ne _ hx, List.indexOf_cons_ne _ hxv] at hlt
          exact ih p u v hnd1.2 hu hv (by omega)

/-- C5 counterexample: entities present only in the target do not keep
their relative order among themselves: in target [1,2,3,4] with reference
iteration order [1,3], entities 4 and 2 (absent from the reference) are
visited 4-before-2 before sort_as and 2-before-4 after it. -/
theorem sort_as_target_only_order_not_kept :
    ((iterate [1, 2, 3, 4]).indexOf 4 < (iterate [1, 2, 3, 4]).indexOf 2) ∧
      ((iterate (sortAs [1, 2, 3, 4] [1, 3])).indexOf 2 <
        (iterate (sortAs [1, 2, 3, 4] [1, 3])).indexOf 4) ∧
      2 ∈ ([1, 2, 3, 4] : List ℕ) ∧ 4 ∈ ([1, 2, 3, 4] : List ℕ) ∧
      2 ∉ ([1, 3] : List ℕ) ∧ 4 ∉ ([1, 3] : List ℕ) := by
  decide

/-- C5 (amended): after target.sort_as(reference), any two entities
present in both the target and the reference appear in the target's
iteration order exactly in the reference's relative order; entities
present only in the target are left wherever the swaps of the single-pass
sweep leave them, with no relative-order guarantee. -/
theorem sort_as_mirrors_reference_order (t rs : List ℕ) (u v : ℕ) (hrs : rs.Nodup)
    (hu1 : u ∈ t) (hu2 : u ∈ rs) (hv1 : v ∈ t) (hv2 : v ∈ rs)
    (hlt : rs.indexOf u < rs.indexOf v) :
    (iterate (sortAs t rs)).indexOf u < (iterate (sortAs t rs)).indexOf v := by
  have hs_nodup : (rs.filter (fun x => decide (x ∈ t))).Nodup := hrs.filter _
  have hs_sub : rs.filter (fun x => decide (x ∈ t)) ⊆ t := by
    intro x hx
    have := List.mem_filter.mp hx
    simpa using this.2
  have hm : (rs.filter (fun x => decide (x ∈ t))).length ≤ t.length :=
    (hs_nodup.subperm hs_sub).length_le
  obtain ⟨w, h1, _, _⟩ := sortAsAux_spec rs t t.length hrs (le_refl _)
    (fun r _ => by simp) hm
  have hiter : iterate (sortAs t rs) =
      rs.filter (fun x => decide (x ∈ t)) ++ w.reverse := by
    unfold sortAs
    rw [iterate_reverse, h1, List.drop_length, List.append_nil, List.reverse_append,
      List.reverse_reverse]
  have hu_s : u ∈ rs.filter (fun x => decide (x ∈ t)) :=
    List.mem_filter.mpr ⟨hu2, by simpa⟩
  have hv_s : v ∈ rs.filter (fun x => decide (x ∈ t)) :=
    List.mem_filter.mpr ⟨hv2, by simpa⟩
  rw [hiter, indexOf_append_left _ _ _ hu_s, indexOf_append_left _ _ _ hv_s]
  exact filter_indexOf_mono rs _ u v hrs hu_s hv_s hlt

/-- C5 witness: in target [1,2,3,4] with reference iteration order [1,3],
the shared entities 1 and 3 appear after sort_as in that reference
order. -/
theorem sort_as_mirrors_reference_order_witness :
    (iterate (sortAs [1, 2, 3, 4] [1, 3])).indexOf 1 <
      (iterate (sortAs [1, 2, 3, 4] [1, 3])).indexOf 3 :=
  sort_as_mirrors_reference_order [1, 2, 3, 4] [1, 3] 1 3 (by decide) (by decide)
    (by decide) (by decide) (by decide) (by decide)

theorem sortAsAux_fixed : ∀ (rs T : List ℕ) (c : ℕ), T.Nodup → c ≤ T.length →
    (∀ i, i < (rs.filter (fun x => decide (x ∈ T))).length →
      T.getD (c - 1 - i) 0 = (rs.filter (fun x => decide (x ∈ T))).getD i 0) →
    (rs.filter (fun x => decide (x ∈ T))).length ≤ c →
    sortAsAux T rs c = T := by
  intro rs
  induction rs with
  | nil => intro T c _ _ _ _; rfl
  | cons r rs ih =>
    intro T c hnd hc hpos hlen
    cases c with
    | zero => exact sortAsAux_zero T (r :: rs)
    | succ c =>
      rw [sortAsAux_cons_succ]
      by_cases hr : r ∈ T
      · rw [if_pos hr]
        have hfil : (r :: rs).filter (fun x => decide (x ∈ T)) =
            r :: rs.filter (fun x => decide (x ∈ T)) := by
          rw [List.filter_cons, if_pos (by simpa using hr)]
        have h00 := hpos 0 (by rw [hfil]; simp)
        rw [hfil] at h00
        have h0 : T.getD c 0 = r := by simpa using h00
        have hclt : c < T.length := hc
        have hidx : T.indexOf r = c := by
          have hlt := List.indexOf_lt_length.mpr hr
          have h0e : T[c] = r := by rw [← List.getD_eq_getElem T 0 hclt]; exact h0
          have hie : T[T.indexOf r] = r := List.getElem_indexOf hlt
          exact hnd.getElem_inj_iff.mp (hie.trans h0e.symm)
        rw [hidx]
        have hswap : swapPos T c c = T := by
          unfold swapPos
          dsimp only
          rw [List.set_set, set_getD_self_list T c hclt]
        rw [hswap]
        apply ih T c hnd (Nat.le_of_lt hclt)
        · intro i hi
          have hstep := hpos (i + 1) (by rw [hfil, List.length_cons]; omega)
          rw [hfil] at hstep
          rw [show c + 1 - 1 - (i + 1) = c - 1 - i from by omega] at hstep
          simpa using hstep
        · rw [hfil, List.length_cons] at hlen
          omega
      · rw [if_neg hr]
        have hfil : (r :: rs).filter (fun x => decide (x ∈ T)) =
            rs.filter (fun x => decide (x ∈ T)) := by
          rw [List.filter_cons, if_neg (by simpa using hr)]
        apply ih T (c + 1) hnd hc
        · intro i hi
          have hstep := hpos i (by rw [hfil]; exact hi)
          rw [hfil] at hstep
          exact hstep
        · rw [hfil] at hlen
          exact hlen

theorem getD_reverse (l : List ℕ) (i : ℕ) (h : i < l.length) :
    l.reverse.getD (l.length - 1 - i) 0 = l.getD i 0 := by
  have h1 : l.length - 1 - i < l.reverse.length := by rw [List.length_reverse]; omega
  rw [List.getD_eq_getElem _ 0 h1, List.getD_eq_getElem _ 0 h, List.getElem_reverse]
  simp only [show l.length - 1 - (l.length - 1 - i) = i from by omega]

theorem sortAs_idem (t rs : List ℕ) (ht : t.Nodup) (hrs : rs.Nodup) :
    sortAs (sortAs t rs) rs = sortAs t rs := by
  have hs_nodup : (rs.filter (fun x => decide (x ∈ t))).Nodup := hrs.filter _
  have hs_sub : rs.filter (fun x => decide (x ∈ t)) ⊆ t := by
    intro x hx
    have := List.mem_filter.mp hx
    simpa using this.2
  have hm : (rs.filter (fun x => decide (x ∈ t))).length ≤ t.length :=
    (hs_nodup.subperm hs_sub).length_le
  obtain ⟨w, h1, h2, h3⟩ := sortAsAux_spec rs t t.length hrs (le_refl _)
    (fun r _ => by simp) hm
  have hT : sortAs t rs = w ++ (rs.filter (fun x => decide (x ∈ t))).reverse := by
    show sortAsAux t rs t.length = _
    rw [h1, List.drop_length, List.append_nil]
  have hperm : (sortAs t rs).Perm t := h3
  have hnd2 : (sortAs t rs).Nodup := hperm.nodup_iff.mpr ht
  have hfil2 : rs.filter (fun x => decide (x ∈ sortAs t rs)) =
      rs.filter (fun x => decide (x ∈ t)) := by
    apply List.filter_congr
    intro x _
    simp only [decide_eq_decide]
    exact hperm.mem_iff
  show sortAsAux (sortAs t rs) rs (sortAs t rs).length = sortAs t rs
  apply sortAsAux_fixed rs (sortAs t rs) (sortAs t rs).length hnd2 (le_refl _)
  · intro i hi
    rw [hfil2] at hi ⊢
    rw [hT, List.length_append, List.length_reverse]
    rw [show w.length + (rs.filter (fun x => decide (x ∈ t))).length - 1 - i =
        w.length + ((rs.filter (fun x => decide (x ∈ t))).length - 1 - i) from by omega]
    rw [List.getD_append_right _ _ _ _ (Nat.le_add_right _ _), Nat.add_sub_cancel_left]
    exact getD_reverse _ i hi
  · rw [hfil2, hperm.length_eq]
    exact hm

/-- C7: sort_as is idempotent: for any target and reference sparse sets
whose dense arrays hold no duplicates, applying target.sort_as(reference)
twice in a row yields the same target (dense order, sparse entries and
all) as applying it once. -/
theorem sort_as_idempotent (s ref : sparse_set) (hs : s.packed.Nodup)
    (href : ref.packed.Nodup) :
    (s.sort_as ref).sort_as ref = s.sort_as ref := by
  have hrs : (iterate ref.packed).Nodup := by
    rw [iterate_reverse]
    exact List.nodup_reverse.mpr href
  have key := sortAs_idem s.packed (iterate ref.packed) hs hrs
  dsimp only [sparse_set.sort_as]
  rw [key]

/-- C7 witness: a concrete target holding 1..4 sorted as a reference
holding 3 and 1, twice, equals the single application. -/
theorem sort_as_idempotent_witness :
    ((pushAll (mkSet .swap_and_pop) [1, 2, 3, 4]).sort_as
        (pushAll (mkSet .swap_and_pop) [3, 1])).sort_as
      (pushAll (mkSet .swap_and_pop) [3, 1]) =
    (pushAll (mkSet .swap_and_pop) [1, 2, 3, 4]).sort_as
      (pushAll (mkSet .swap_and_pop) [3, 1]) :=
  sort_as_idempotent (pushAll (mkSet .swap_and_pop) [1, 2, 3, 4])
    (pushAll (mkSet .swap_and_pop) [3, 1]) (by decide) (by decide)
